import Mathlib

/-!
Verification of the buffer-cache / transaction-engine specification against a
shallow embedding of `src/buffer_cache/alt.cc` (RethinkDB fork).

Conventions used throughout this development:
* Machine integers are modelled as `Nat` / `Int`.  The quantities involved
  (semaphore capacities, block versions, page counts) are bounded far below
  2^63 in the source, so no wrap-around modelling is required; where a C++
  conversion could in principle differ (the one double-valued expression in
  the throttler) the surrounding `min` makes the integer model exact, as
  argued in a comment at the definition.
* `rassert` / `guarantee` statements are assertions that compile to no-ops in
  release builds; the embedding models release semantics and the assertions
  are recorded as comments or as hypotheses of the theorems.
* Types defined in headers that are not part of the provided sources
  (`block_version_t`, `repli_timestamp_t`, `page_txn_t::dirtied_page_count`,
  `throttler_acq_t::set_pre_spawn_flush`) are modelled from the spec; each
  such definition carries a doc comment starting with `Modelled from the
  spec:`.
-/

namespace Alt

/-! ## Throttler (`alt_txn_throttler_t`, `throttler_acq_t`)

Embedding of the constants at the top of `alt.cc` and of
`alt_txn_throttler_t::inform_memory_limit_change`,
`throttler_acq_t::update_dirty_page_count` and
`throttler_acq_t::mark_dirty_pages_written`. -/

def MINIMUM_SOFT_UNWRITTEN_CHANGES_LIMIT : Int := 1

def SOFT_UNWRITTEN_CHANGES_LIMIT : Int := 8000

/-- The C++ constant `SOFT_UNWRITTEN_CHANGES_MEMORY_FRACTION = 0.5` appears
only in the product `(memory_limit / max_block_size) * 0.5`, which is then
converted to `int64_t` (truncation toward zero).  Multiplying a binary float
by 0.5 is exact, and conversion of the `uint64_t` quotient to `double` is
exact below 2^53 — above 2^53 both the C++ value and the integer model are
clamped by the subsequent `min` with 8000 — so the C++ expression equals
integer division by 2 for every input.  The embedding therefore uses `/ 2`
on `Nat`. -/
def SOFT_UNWRITTEN_CHANGES_MEMORY_FRACTION_DENOM : Nat := 2

def INDEX_CHANGES_LIMIT_FACTOR : Int := 5

/-- State of a `throttler_acq_t`: the two semaphore-acquisition counts
(`block_changes_semaphore_acq_.count()`, `index_changes_semaphore_acq_.count()`),
the `expected_change_count_` and the `pre_spawn_flush_` flag. -/
structure ThrottlerAcq where
  blockChangesCount : Int
  indexChangesCount : Int
  expectedChangeCount : Int
  preSpawnFlush : Bool
deriving DecidableEq, Repr

/-- Embedding of `throttler_acq_t::update_dirty_page_count` (alt.cc:226-234).
The entry assertion `block_changes_semaphore_acq_.count() ==
index_changes_semaphore_acq_.count()` is an `rassert`; it appears as a
hypothesis of the theorems about this function. -/
def updateDirtyPageCount (acq : ThrottlerAcq) (newCount : Int) : ThrottlerAcq :=
  let n := max newCount acq.expectedChangeCount
  if acq.preSpawnFlush = true ∧ acq.blockChangesCount < n then
    { acq with blockChangesCount := n, indexChangesCount := n }
  else
    acq

/-- Embedding of `throttler_acq_t::mark_dirty_pages_written` (alt.cc:236-238):
only the block-changes semaphore acquisition is set to zero. -/
def markDirtyPagesWritten (acq : ThrottlerAcq) : ThrottlerAcq :=
  { acq with blockChangesCount := 0 }

/-- Modelled from the spec: `throttler_acq_t::set_pre_spawn_flush` is declared
in a header that is not part of the provided sources.  Per the spec (§4.6,
glossary), entering pre-spawn-flush sets the flag and grows the permit to the
current dirty-page count, which is exactly an `update_dirty_page_count` call
on the flagged permit. -/
def setPreSpawnFlush (acq : ThrottlerAcq) (count : Int) : ThrottlerAcq :=
  updateDirtyPageCount { acq with preSpawnFlush := true } count

/-- Result of `alt_txn_throttler_t::inform_memory_limit_change`: the
capacities installed into the two semaphores. -/
structure ThrottlerCapacities where
  blockCapacity : Int
  indexCapacity : Int
deriving DecidableEq, Repr

/-- Embedding of `alt_txn_throttler_t::inform_memory_limit_change`
(alt.cc:64-75).  `memoryLimit` is the `uint64_t` memory limit, `maxBlockSize`
the serializer block size (`ser_value()`, a positive `uint32_t`),
`minimumLimit` the `minimum_unwritten_changes_limit_` stored by the
constructor (the cache passes `MINIMUM_SOFT_UNWRITTEN_CHANGES_LIMIT = 1`).
See `SOFT_UNWRITTEN_CHANGES_MEMORY_FRACTION_DENOM` for why the double
multiplication by 0.5 is integer division by 2. -/
def informMemoryLimitChange (minimumLimit : Int) (memoryLimit maxBlockSize : Nat) :
    ThrottlerCapacities :=
  let throttlerLimit : Int :=
    min SOFT_UNWRITTEN_CHANGES_LIMIT
      (((memoryLimit / maxBlockSize) / SOFT_UNWRITTEN_CHANGES_MEMORY_FRACTION_DENOM : Nat) : Int)
  let throttlerLimit := max throttlerLimit minimumLimit
  { blockCapacity := throttlerLimit,
    indexCapacity := throttlerLimit * INDEX_CHANGES_LIMIT_FACTOR }

/-- The block-changes capacity formula exactly as the claim words it, with the
multiplication by 0.5 read as exact rational arithmetic.  This definition
follows the words of the spec, not the source; it exists to be compared with
`informMemoryLimitChange`. -/
def claimedBlockCapacityQ (minimumLimit : ℚ) (memoryLimit maxBlockSize : Nat) : ℚ :=
  max minimumLimit (min 8000 (((memoryLimit / maxBlockSize : Nat) : ℚ) * (1 / 2)))

/-- C9 (amended): `inform_memory_limit_change(mem, bs)` sets the block-changes
capacity to `max(floor, min(8000, (mem / bs) / 2))` where the halving is the
truncated (floor) halving of the integer quotient `mem / bs`, and sets the
index-changes capacity to exactly 5 times the block-changes capacity.  When
the quotient is even this agrees with the exact-arithmetic formula
`max(floor, min(8000, (mem / bs) * 0.5))` of the claim, and the capacity is
never below the configured minimum. -/
theorem c9_inform_memory_limit_change (minimumLimit : Int) (mem bs : Nat) :
    (informMemoryLimitChange minimumLimit mem bs).blockCapacity
        = max minimumLimit (min SOFT_UNWRITTEN_CHANGES_LIMIT (((mem / bs) / 2 : Nat) : Int))
      ∧ (informMemoryLimitChange minimumLimit mem bs).indexCapacity
        = INDEX_CHANGES_LIMIT_FACTOR * (informMemoryLimitChange minimumLimit mem bs).blockCapacity
      ∧ ((mem / bs) % 2 = 0 →
          ((informMemoryLimitChange minimumLimit mem bs).blockCapacity : ℚ)
            = claimedBlockCapacityQ (minimumLimit : ℚ) mem bs)
      ∧ minimumLimit ≤ (informMemoryLimitChange minimumLimit mem bs).blockCapacity := by
  refine ⟨?_, ?_, ?_, ?_⟩
  · simp [informMemoryLimitChange, SOFT_UNWRITTEN_CHANGES_MEMORY_FRACTION_DENOM, max_comm]
  · simp [informMemoryLimitChange, INDEX_CHANGES_LIMIT_FACTOR, mul_comm]
  · intro hev
    have hhalf : (((mem / bs) / 2 : Nat) : ℚ) = ((mem / bs : Nat) : ℚ) * (1 / 2) := by
      obtain ⟨k, hk⟩ : ∃ k, mem / bs = 2 * k := ⟨(mem / bs) / 2, by omega⟩
      rw [hk]
      push_cast [Nat.mul_div_cancel_left _ (by norm_num : (0:Nat) < 2)]
      ring
    simp only [informMemoryLimitChange, claimedBlockCapacityQ,
      SOFT_UNWRITTEN_CHANGES_MEMORY_FRACTION_DENOM, SOFT_UNWRITTEN_CHANGES_LIMIT]
    rw [← hhalf]
    rw [max_comm]
    push_cast
    rfl
  · simp [informMemoryLimitChange, le_max_iff]

/-- C9 counterexample: with memory limit 7 and block size 1 the code installs
a block-changes capacity of 3, while the formula of the claim, read with
exact arithmetic, gives `max(1, min(8000, 7 * 0.5)) = 3.5 ≠ 3`. -/
theorem c9_counterexample :
    informMemoryLimitChange 1 7 1 = ⟨3, 15⟩
      ∧ claimedBlockCapacityQ 1 7 1 = 7 / 2
      ∧ ((informMemoryLimitChange 1 7 1).blockCapacity : ℚ) ≠ claimedBlockCapacityQ 1 7 1 := by
  have h1 : (informMemoryLimitChange 1 7 1).blockCapacity = 3 := by decide
  refine ⟨by decide, ?_, ?_⟩
  · norm_num [claimedBlockCapacityQ]
  · rw [h1]
    norm_num [claimedBlockCapacityQ]

/-- C10: starting from equal block and index holdings (the function's own
entry assertion), `update_dirty_page_count(n)` never decreases either
holding, leaves the flag and expected count alone, changes the state only
when the permit is in pre-spawn-flush state and `max(n, expected)` exceeds
the block holding — in which case it raises both holdings to that same value
— and always preserves equality of the two holdings.  Holdings shrink only
through `mark_dirty_pages_written`, which zeroes the block holding and only
the block holding. -/
theorem c10_update_dirty_page_count (acq : ThrottlerAcq) (n : Int)
    (h : acq.blockChangesCount = acq.indexChangesCount) :
    acq.blockChangesCount ≤ (updateDirtyPageCount acq n).blockChangesCount
      ∧ acq.indexChangesCount ≤ (updateDirtyPageCount acq n).indexChangesCount
      ∧ (updateDirtyPageCount acq n).blockChangesCount
          = (updateDirtyPageCount acq n).indexChangesCount
      ∧ (updateDirtyPageCount acq n).preSpawnFlush = acq.preSpawnFlush
      ∧ (updateDirtyPageCount acq n).expectedChangeCount = acq.expectedChangeCount
      ∧ (¬ (acq.preSpawnFlush = true ∧ acq.blockChangesCount < max n acq.expectedChangeCount) →
          updateDirtyPageCount acq n = acq)
      ∧ ((acq.preSpawnFlush = true ∧ acq.blockChangesCount < max n acq.expectedChangeCount) →
          (updateDirtyPageCount acq n).blockChangesCount = max n acq.expectedChangeCount
            ∧ (updateDirtyPageCount acq n).indexChangesCount = max n acq.expectedChangeCount)
      ∧ (markDirtyPagesWritten acq).blockChangesCount = 0
      ∧ (markDirtyPagesWritten acq).indexChangesCount = acq.indexChangesCount
      ∧ (markDirtyPagesWritten acq).expectedChangeCount = acq.expectedChangeCount
      ∧ (markDirtyPagesWritten acq).preSpawnFlush = acq.preSpawnFlush := by
  have heq : updateDirtyPageCount acq n =
      if acq.preSpawnFlush = true ∧ acq.blockChangesCount < max n acq.expectedChangeCount then
        { acq with blockChangesCount := max n acq.expectedChangeCount,
                   indexChangesCount := max n acq.expectedChangeCount }
      else acq := rfl
  rw [heq]
  by_cases hc : acq.preSpawnFlush = true ∧ acq.blockChangesCount < max n acq.expectedChangeCount
  · rw [if_pos hc]
    exact ⟨le_of_lt hc.2, h ▸ le_of_lt hc.2, rfl, rfl, rfl,
      fun hn => absurd hc hn, fun _ => ⟨rfl, rfl⟩, rfl, rfl, rfl, rfl⟩
  · rw [if_neg hc]
    exact ⟨le_refl _, le_refl _, h, rfl, rfl, fun _ => rfl, fun hn => absurd hn hc,
      rfl, rfl, rfl, rfl⟩

/-- Witness for `c10_update_dirty_page_count` at the concrete permit
(block = 2, index = 2, expected = 1, pre-spawn-flush set) and `n = 5`: the
hypothesis holds and the holdings remain equal after the update. -/
theorem c10_update_dirty_page_count_witness :
    (⟨2, 2, 1, true⟩ : ThrottlerAcq).blockChangesCount
        = (⟨2, 2, 1, true⟩ : ThrottlerAcq).indexChangesCount
      ∧ (updateDirtyPageCount ⟨2, 2, 1, true⟩ 5).blockChangesCount
        = (updateDirtyPageCount ⟨2, 2, 1, true⟩ 5).indexChangesCount :=
  ⟨rfl, (c10_update_dirty_page_count ⟨2, 2, 1, true⟩ 5 rfl).2.2.1⟩

/-! ## Change reconciliation (`page_cache_t::compute_changes`)

Block recencies (`repli_timestamp_t`) are modelled as `Option Nat`, with
`none` playing the role of `repli_timestamp_t::invalid`. -/

abbrev Recency := Option Nat

/-- Modelled from the spec: `superceding_recency` is defined outside the
provided sources; per the spec (§3, Data model) it returns the larger of two
recencies, with `invalid` below every valid value. -/
def supercedingRecency : Recency → Recency → Recency
  | none, b => b
  | some x, none => some x
  | some x, some y => some (max x y)

/-- Embedding of `dirtied_page_t`: a block version, a block id, and a
`timestamped_page_ptr_t` holding an optional page body (none when the page
was deleted) together with the recency captured at snapshot time.  Page
bodies are abstracted to `Nat` identifiers. -/
structure DirtiedPage where
  blockVersion : Nat
  blockId : Nat
  body : Option Nat
  tstamp : Recency
deriving DecidableEq, Repr

/-- Embedding of `touched_page_t`: a block version, a block id and the
recency recorded by `set_recency`. -/
structure TouchedPage where
  blockVersion : Nat
  blockId : Nat
  tstamp : Recency
deriving DecidableEq, Repr

/-- Embedding of `page_cache_t::block_change_t`. -/
structure BlockChange where
  version : Nat
  modified : Bool
  page : Option Nat
  tstamp : Recency
deriving DecidableEq, Repr

/-- Embedding of the `page_txn_t` fields used by the flush machinery: the
graph edges, the back-pointer sets, the captured snapshots and touches, the
throttler permit and the lifecycle flags.  Current pages and transactions
are identified by `Nat` ids. -/
structure PageTxn where
  preceders : List Nat
  subseqers : List Nat
  pagesWriteAcquiredLast : List Nat
  pagesDirtiedLast : List Nat
  snapshottedDirtiedPages : List DirtiedPage
  touchedPages : List TouchedPage
  throttlerAcq : ThrottlerAcq
  beganWaitingForFlush : Bool
  spawnedFlush : Bool
  liveAcqs : Nat
deriving DecidableEq, Repr

/-- The `changes.insert` / mutate-on-collision pattern of `compute_changes`:
insert `(b, c)` if the key is absent, otherwise replace the stored change by
`combine old`. -/
def insertOrCombine (changes : List (Nat × BlockChange)) (b : Nat) (c : BlockChange)
    (combine : BlockChange → BlockChange) : List (Nat × BlockChange) :=
  match changes with
  | [] => [(b, c)]
  | (k, old) :: rest =>
    if k = b then (k, combine old) :: rest
    else (k, old) :: insertOrCombine rest b c combine

/-- One step of the first loop of `compute_changes` (alt.cc:1288-1312): a
snapshotted dirtied page produces `(version, modified = true, page, ts)` —
with page and timestamp taken from the snapshot when the page body exists and
`(nullptr, invalid)` otherwise — and on collision the entry with the greater
version replaces the stored entry wholesale. -/
def applyDirtied (changes : List (Nat × BlockChange)) (d : DirtiedPage) :
    List (Nat × BlockChange) :=
  let change : BlockChange :=
    ⟨d.blockVersion, true, d.body, if d.body.isSome then d.tstamp else none⟩
  insertOrCombine changes d.blockId change
    (fun old => if old.version < change.version then change else old)

/-- One step of the second loop of `compute_changes` (alt.cc:1314-1337): a
touched page produces `(version, modified = false, nullptr, ts)`; on
collision with a stored entry of smaller version, only the `tstamp` and
`version` fields of the stored entry are overwritten (its `modified` flag
and page pointer are kept).  The source `rassert`s that the touch's
timestamp supercedes the stored one; release builds perform the plain
overwrite embedded here. -/
def applyTouched (changes : List (Nat × BlockChange)) (t : TouchedPage) :
    List (Nat × BlockChange) :=
  let change : BlockChange := ⟨t.blockVersion, false, none, t.tstamp⟩
  insertOrCombine changes t.blockId change
    (fun old =>
      if old.version < t.blockVersion then
        { old with tstamp := t.tstamp, version := t.blockVersion }
      else old)

/-- Embedding of `page_cache_t::compute_changes` (alt.cc:1278-1340): fold all
transactions' snapshotted dirtied pages, then all their touched pages, into
one map from block id to merged change. -/
def computeChanges (txns : List PageTxn) : List (Nat × BlockChange) :=
  let changes := txns.foldl (fun m txn => txn.snapshottedDirtiedPages.foldl applyDirtied m) []
  txns.foldl (fun m txn => txn.touchedPages.foldl applyTouched m) changes

/-- Lookup in the change map built by `computeChanges`. -/
def getChange : List (Nat × BlockChange) → Nat → Option BlockChange
  | [], _ => none
  | (k, c) :: rest, b => if k = b then some c else getChange rest b

/-- A transaction whose only contribution is one dirtied page. -/
def dirtyOnlyTxn (v b pg ts : Nat) : PageTxn :=
  { preceders := [], subseqers := [], pagesWriteAcquiredLast := [], pagesDirtiedLast := [],
    snapshottedDirtiedPages := [⟨v, b, some pg, some ts⟩], touchedPages := [],
    throttlerAcq := ⟨0, 0, 0, false⟩, beganWaitingForFlush := true, spawnedFlush := true,
    liveAcqs := 0 }

/-- A transaction whose only contribution is one touched page. -/
def touchOnlyTxn (v b ts : Nat) : PageTxn :=
  { preceders := [], subseqers := [], pagesWriteAcquiredLast := [], pagesDirtiedLast := [],
    snapshottedDirtiedPages := [], touchedPages := [⟨v, b, some ts⟩],
    throttlerAcq := ⟨0, 0, 0, false⟩, beganWaitingForFlush := true, spawnedFlush := true,
    liveAcqs := 0 }

/-- C3 (amended): in `compute_changes`, when two dirtied entries for one
block collide the one with the greater block version wins wholesale
(independently of transaction order); when a touched entry collides with a
stored dirtied entry of smaller version, only the version and the timestamp
are taken from the touch — the merged record keeps `modified = true` and the
dirtied page body, and its timestamp is the touch's own timestamp (which the
source asserts supercedes the stored one); a touched entry with the smaller
version is ignored entirely. -/
theorem c3_compute_changes_merge (v1 v2 b pg1 pg2 ts1 ts2 : Nat) (hlt : v1 < v2) :
    getChange (computeChanges [dirtyOnlyTxn v1 b pg1 ts1, dirtyOnlyTxn v2 b pg2 ts2]) b
        = some ⟨v2, true, some pg2, some ts2⟩
      ∧ getChange (computeChanges [dirtyOnlyTxn v2 b pg2 ts2, dirtyOnlyTxn v1 b pg1 ts1]) b
        = some ⟨v2, true, some pg2, some ts2⟩
      ∧ getChange (computeChanges [dirtyOnlyTxn v1 b pg1 ts1, touchOnlyTxn v2 b ts2]) b
        = some ⟨v2, true, some pg1, some ts2⟩
      ∧ getChange (computeChanges [touchOnlyTxn v1 b ts1, dirtyOnlyTxn v2 b pg2 ts2]) b
        = some ⟨v2, true, some pg2, some ts2⟩ := by
  have hgt : ¬ v2 < v1 := Nat.not_lt.mpr (Nat.le_of_lt hlt)
  have hne : ¬ v2 < v2 := Nat.lt_irrefl v2
  refine ⟨?_, ?_, ?_, ?_⟩ <;>
    simp [computeChanges, applyDirtied, applyTouched, insertOrCombine, getChange,
      dirtyOnlyTxn, touchOnlyTxn, hlt, hgt, hne]

/-- Witness for `c3_compute_changes_merge` at the concrete versions of the
claim scenario: `5 < 6`, and the dirty-at-5/touch-at-6 merge carries
`(version 6, modified = true, page of the dirtier, timestamp 8)`. -/
theorem c3_compute_changes_merge_witness :
    5 < 6
      ∧ getChange (computeChanges [dirtyOnlyTxn 5 7 100 10, touchOnlyTxn 6 7 8]) 7
        = some ⟨6, true, some 100, some 8⟩ :=
  ⟨by decide, (c3_compute_changes_merge 5 6 7 100 100 10 8 (by decide)).2.2.1⟩

/-- C3 counterexample: for transaction t₁ dirtying block 7 at version 5 with
timestamp 10 and t₂ touching block 7 at version 6 with timestamp 8, the
merged change record carries `modified = true` (the dirty write survives,
with its page) and timestamp 8 — not `modified = false` and not
`superceding(10, 8) = 10` as the claim states. -/
theorem c3_counterexample :
    getChange (computeChanges [dirtyOnlyTxn 5 7 100 10, touchOnlyTxn 6 7 8]) 7
        = some ⟨6, true, some 100, some 8⟩
      ∧ supercedingRecency (some 10) (some 8) = some 10
      ∧ (⟨6, true, some 100, some 8⟩ : BlockChange).modified ≠ false
      ∧ (⟨6, true, some 100, some 8⟩ : BlockChange).tstamp
          ≠ supercedingRecency (some 10) (some 8) := by
  exact ⟨by decide, by decide, by decide, by decide⟩

/-! ## Eviction of current pages (`should_be_evicted`,
`consider_evicting_current_page`) and read-ahead
(`add_read_ahead_buf`) -/

/-- The `page_t` state observed by `current_page_t::should_be_evicted`:
loading / loaded flags, waiter presence, and the number of `page_ptr_t`
holders. -/
structure PageRep where
  isLoading : Bool
  isLoaded : Bool
  hasWaiters : Bool
  ptrCount : Nat
deriving DecidableEq, Repr

/-- The `current_page_t` fields consulted by the eviction decision.
`hasAcquirers` models `!acquirers_.empty()`; `page` is the optional resident
`page_ptr_t` (`page_.has()`). -/
structure CurrentPageEv where
  hasAcquirers : Bool
  lastWriteAcquirer : Option Nat
  lastDirtier : Option Nat
  numKeepalives : Nat
  page : Option PageRep
deriving DecidableEq, Repr

/-- Embedding of `current_page_t::should_be_evicted` (alt.cc:948-985),
reason by reason in source order: acquirers, last write acquirer, last
dirtier, keepalives, then the resident page body (which must be neither
loading nor loaded, have no waiters, and have exactly one pointer holding
it). -/
def shouldBeEvicted (cp : CurrentPageEv) : Bool :=
  if cp.hasAcquirers then false
  else if cp.lastWriteAcquirer.isSome then false
  else if cp.lastDirtier.isSome then false
  else if 0 < cp.numKeepalives then false
  else
    match cp.page with
    | some page =>
      if page.isLoading || page.hasWaiters || page.isLoaded || page.ptrCount ≠ 1 then false
      else true
    | none => true

/-- The `page_cache_t` state consulted by `consider_evicting_current_page`
and `add_read_ahead_buf`: whether the read-ahead callback is still
registered (`read_ahead_cb_ != nullptr`), and the `current_pages_` table. -/
structure PageCacheEv where
  readAheadCb : Bool
  currentPages : List (Nat × CurrentPageEv)
deriving DecidableEq, Repr

/-- Lookup in the `current_pages_` table. -/
def findCurrentPage : List (Nat × CurrentPageEv) → Nat → Option CurrentPageEv
  | [], _ => none
  | (k, cp) :: rest, b => if k = b then some cp else findCurrentPage rest b

/-- Erasing a block id from the `current_pages_` table. -/
def eraseCurrentPage : List (Nat × CurrentPageEv) → Nat → List (Nat × CurrentPageEv)
  | [], _ => []
  | (k, cp) :: rest, b => if k = b then rest else (k, cp) :: eraseCurrentPage rest b

/-- Embedding of `page_cache_t::consider_evicting_current_page`
(alt.cc:287-307): nothing happens while read-ahead is live; otherwise the
entry, if present and evictable, is erased from the table. -/
def considerEvictingCurrentPage (c : PageCacheEv) (blockId : Nat) : PageCacheEv :=
  if c.readAheadCb then c
  else
    match findCurrentPage c.currentPages blockId with
    | none => c
    | some cp =>
      if shouldBeEvicted cp then
        { c with currentPages := eraseCurrentPage c.currentPages blockId }
      else c

/-- Embedding of `page_cache_t::add_read_ahead_buf` (alt.cc:309-334): the
offer is dropped when the read-ahead callback has been unregistered or when
a `current_page_t` already exists for the block id; otherwise a fresh
current page holding the offered buffer is installed.  `newPage` stands for
`current_page_t(block_id, buf, token, this)`. -/
def addReadAheadBuf (c : PageCacheEv) (blockId : Nat) (newPage : CurrentPageEv) :
    PageCacheEv :=
  if c.readAheadCb = false then c
  else if (findCurrentPage c.currentPages blockId).isSome then c
  else { c with currentPages := c.currentPages ++ [(blockId, newPage)] }

/-- Any of the blocking conditions listed by the claim. -/
def evictionBlocked (cp : CurrentPageEv) : Prop :=
  cp.hasAcquirers = true ∨ cp.lastWriteAcquirer ≠ none ∨ cp.lastDirtier ≠ none
    ∨ 0 < cp.numKeepalives
    ∨ ∃ page, cp.page = some page
        ∧ (page.isLoading = true ∨ page.isLoaded = true ∨ page.hasWaiters = true
            ∨ 1 < page.ptrCount)

instance (cp : CurrentPageEv) : Decidable (evictionBlocked cp) := by
  unfold evictionBlocked
  cases cp.page <;> simp <;> infer_instance

/-- Characterization of `shouldBeEvicted`: it returns true exactly when no
acquirer, no last write acquirer, no last dirtier, no keepalive, and any
resident page body is idle (not loading, not loaded, no waiters, exactly one
pointer). -/
theorem shouldBeEvicted_true_iff (ha : Bool) (lw ld : Option Nat) (ka : Nat)
    (pg : Option PageRep) :
    shouldBeEvicted ⟨ha, lw, ld, ka, pg⟩ = true ↔
      ha = false ∧ lw = none ∧ ld = none ∧ ka = 0 ∧
        ∀ page, pg = some page → page.isLoading = false ∧ page.isLoaded = false
          ∧ page.hasWaiters = false ∧ page.ptrCount = 1 := by
  rcases ha <;> rcases lw <;> rcases ld <;> rcases pg with _ | ⟨l1, l2, w, pc⟩ <;>
    simp only [shouldBeEvicted] <;>
    (try split_ifs) <;>
    (try simp_all) <;>
    (try omega) <;>
    (intro a b c; subst a; subst b; subst c; simp_all)

/-- C7: `should_be_evicted` returns false whenever the current page has any
acquirer, a last write acquirer, a last dirtier, a positive keepalive count,
or a resident page body that is loading, loaded, has waiters, or has more
than one pointer holding it; and `consider_evicting_current_page` erases an
entry from the table only when none of these conditions hold for it. -/
theorem c7_eviction_safety (cp : CurrentPageEv) (c : PageCacheEv) (blockId : Nat)
    (hcp : findCurrentPage c.currentPages blockId = some cp)
    (hblocked : evictionBlocked cp) :
    shouldBeEvicted cp = false
      ∧ considerEvictingCurrentPage c blockId = c := by
  have hsbe : shouldBeEvicted cp = false := by
    rcases hs : shouldBeEvicted cp
    · rfl
    · exfalso
      obtain ⟨ha, lw, ld, ka, pg⟩ := cp
      obtain ⟨h1, h2, h3, h4, h5⟩ := (shouldBeEvicted_true_iff ha lw ld ka pg).mp hs
      rcases hblocked with h | h | h | h | ⟨page, hp, hc⟩
      · simp_all
      · simp_all
      · simp_all
      · simp_all
      · obtain ⟨p1, p2, p3, p4⟩ := h5 page hp
        rcases hc with h | h | h | h <;> simp_all
  refine ⟨hsbe, ?_⟩
  unfold considerEvictingCurrentPage
  rcases hra : c.readAheadCb
  · simp [hcp, hsbe]
  · simp

/-- Witness for `c7_eviction_safety`: a concrete single-entry cache whose
current page still has a last dirtier is not touched by
`consider_evicting_current_page`. -/
theorem c7_eviction_safety_witness :
    findCurrentPage
        [(4, (⟨false, none, some 9, 0, none⟩ : CurrentPageEv))] 4
        = some ⟨false, none, some 9, 0, none⟩
      ∧ considerEvictingCurrentPage ⟨false, [(4, ⟨false, none, some 9, 0, none⟩)]⟩ 4
        = ⟨false, [(4, ⟨false, none, some 9, 0, none⟩)]⟩ :=
  ⟨by decide,
    (c7_eviction_safety ⟨false, none, some 9, 0, none⟩
      ⟨false, [(4, ⟨false, none, some 9, 0, none⟩)]⟩ 4 (by decide)
      (Or.inr (Or.inr (Or.inl (by decide))))).2⟩

/-- Appending a fresh entry at the end of the table makes it visible when the
key was previously absent. -/
theorem findCurrentPage_append_self (l : List (Nat × CurrentPageEv)) (b : Nat)
    (np : CurrentPageEv) (h : findCurrentPage l b = none) :
    findCurrentPage (l ++ [(b, np)]) b = some np := by
  induction l with
  | nil => simp [findCurrentPage]
  | cons hd tl ih =>
    obtain ⟨k, cp⟩ := hd
    by_cases hk : k = b
    · simp [findCurrentPage, hk] at h
    · simp only [findCurrentPage, List.cons_append, if_neg hk] at h ⊢
      exact ih h

/-- C8: a read-ahead buffer offered for block id `b` is installed as a new
current page exactly when, at the time `add_read_ahead_buf` runs, the
read-ahead callback is still registered and no current page exists for `b`;
in every other case the offer is dropped and the current-page table is left
unchanged. -/
theorem c8_read_ahead_acceptance (c : PageCacheEv) (blockId : Nat)
    (newPage : CurrentPageEv) :
    (c.readAheadCb = true ∧ findCurrentPage c.currentPages blockId = none →
        addReadAheadBuf c blockId newPage
          = { c with currentPages := c.currentPages ++ [(blockId, newPage)] }
          ∧ findCurrentPage (addReadAheadBuf c blockId newPage).currentPages blockId
            = some newPage)
      ∧ (¬ (c.readAheadCb = true ∧ findCurrentPage c.currentPages blockId = none) →
          addReadAheadBuf c blockId newPage = c) := by
  constructor
  · rintro ⟨hra, habs⟩
    have h1 : addReadAheadBuf c blockId newPage
        = { c with currentPages := c.currentPages ++ [(blockId, newPage)] } := by
      unfold addReadAheadBuf
      rw [hra, habs]
      simp
    refine ⟨h1, ?_⟩
    rw [h1]
    exact findCurrentPage_append_self c.currentPages blockId newPage habs
  · intro hnot
    unfold addReadAheadBuf
    rcases hra : c.readAheadCb
    · simp [hra]
    · rcases habs : findCurrentPage c.currentPages blockId with _ | cp
      · exact absurd ⟨hra, habs⟩ hnot
      · simp [hra, habs]

/-- Witness for `c8_read_ahead_acceptance`: offering a buffer for block 3 to
a live, empty cache installs it; offering one for block 3 to the resulting
cache (where the entry now exists) leaves the table unchanged. -/
theorem c8_read_ahead_acceptance_witness :
    (addReadAheadBuf ⟨true, []⟩ 3 ⟨false, none, none, 0, none⟩
        = ⟨true, [(3, ⟨false, none, none, 0, none⟩)]⟩)
      ∧ addReadAheadBuf ⟨true, [(3, ⟨false, none, none, 0, none⟩)]⟩ 3
          ⟨false, none, none, 0, none⟩
        = ⟨true, [(3, ⟨false, none, none, 0, none⟩)]⟩ :=
  ⟨((c8_read_ahead_acceptance ⟨true, []⟩ 3 ⟨false, none, none, 0, none⟩).1
      ⟨rfl, by decide⟩).1,
    (c8_read_ahead_acceptance ⟨true, [(3, ⟨false, none, none, 0, none⟩)]⟩ 3
      ⟨false, none, none, 0, none⟩).2 (by decide)⟩

/-! ## The per-block admission machine (`current_page_t`,
`current_page_acq_t`) and the transaction graph (`page_txn_t`)

The machine models one `current_page_t` in focus together with the
transaction table (a total map from transaction id to `PageTxn`) and the
recency-index entry of the block.  Page bodies (`page_t`) are abstracted to
`Nat` identifiers; loading a page from the serializer
(`convert_from_serializer_if_necessary`) materializes the identifier equal
to the block id. -/

inductive Access where
  | read
  | write
deriving DecidableEq, Repr

/-- The `current_page_acq_t` fields used by the admission machine: the access
mode, the two one-shot signals (`read_cond_`, `write_cond_`),
`declared_snapshotted_`, the assigned `block_version_`, the owning
transaction (`the_txn_`, non-null exactly for write acquirers) and the
captured snapshot (`snapshotted_page_`: recency and optional page body). -/
structure Acq where
  access : Access
  readPulsed : Bool
  writePulsed : Bool
  snapshotted : Bool
  blockVersion : Nat
  txId : Option Nat
  snapshottedPage : Option (Recency × Option Nat)
deriving DecidableEq, Repr

/-- The `current_page_t` fields used by the machine. -/
structure CurrentPageS where
  blockId : Nat
  isDeleted : Bool
  page : Option Nat
  acquirers : List Acq
  numKeepalives : Nat
  lastWriteAcquirer : Option Nat
  lastWriteAcquirerVersion : Nat
  lastDirtier : Option Nat
  lastDirtierRecency : Recency
  lastDirtierVersion : Nat
deriving DecidableEq, Repr

/-- The machine state: one current page in focus, the transaction table, and
the recency-index entry (`recency_for_block_id`) of the focused block. -/
structure CacheState where
  page : CurrentPageS
  txns : Nat → PageTxn
  recency : Recency

/-- Pointwise update of the transaction table. -/
def updateTxn (txns : Nat → PageTxn) (id : Nat) (t : PageTxn) : Nat → PageTxn :=
  fun x => if x = id then t else txns x

@[simp]
theorem updateTxn_self (txns : Nat → PageTxn) (id : Nat) (t : PageTxn) :
    updateTxn txns id t id = t := by
  simp [updateTxn]

@[simp]
theorem updateTxn_other (txns : Nat → PageTxn) (id : Nat) (t : PageTxn) (j : Nat)
    (h : j ≠ id) : updateTxn txns id t j = txns j := by
  simp [updateTxn, h]

/-- Modelled from the spec: `page_txn_t::dirtied_page_count` is declared in a
header that is not part of the provided sources; per the spec the dirty-page
count of a transaction covers the current pages it is the last dirtier of
together with the snapshots it has already captured. -/
def dirtiedPageCount (t : PageTxn) : Int :=
  ((t.pagesDirtiedLast.length + t.snapshottedDirtiedPages.length : Nat) : Int)

/-- The `add` operation of the backing set of `pages_dirtied_last_` /
`pages_write_acquired_last_`. -/
def addToSet (l : List Nat) (b : Nat) : List Nat :=
  if b ∈ l then l else l ++ [b]

/-- One iteration of the preceder scan inside
`page_txn_t::propagate_pre_spawn_flush` (alt.cc:1193-1198): a preceder whose
flag is not yet set has it set (growing its permit to its dirty-page count)
and is pushed onto the stack. -/
def propagateStep (acc : (Nat → PageTxn) × List Nat) (p : Nat) :
    (Nat → PageTxn) × List Nat :=
  if (acc.1 p).throttlerAcq.preSpawnFlush then acc
  else
    let tp := acc.1 p
    (updateTxn acc.1 p
        { tp with throttlerAcq := setPreSpawnFlush tp.throttlerAcq (dirtiedPageCount tp) },
      p :: acc.2)

/-- The stack-driven walk of `page_txn_t::propagate_pre_spawn_flush`
(alt.cc:1189-1199).  The fuel argument bounds the number of loop iterations;
since every stack push freshly sets a flag, fuel equal to the number of
transactions always suffices. -/
def propagateLoop : (Nat → PageTxn) → List Nat → Nat → (Nat → PageTxn)
  | txns, _, 0 => txns
  | txns, stack, fuel + 1 =>
    match stack with
    | [] => txns
    | txn :: rest =>
      let acc := ((txns txn).preceders).foldl propagateStep (txns, rest)
      propagateLoop acc.1 acc.2 fuel

/-- Embedding of `page_txn_t::propagate_pre_spawn_flush` (alt.cc:1181-1200). -/
def propagatePreSpawnFlush (txns : Nat → PageTxn) (base : Nat) (fuel : Nat) :
    Nat → PageTxn :=
  if (txns base).throttlerAcq.preSpawnFlush then txns
  else
    let tb := txns base
    let txns1 := updateTxn txns base
      { tb with throttlerAcq := setPreSpawnFlush tb.throttlerAcq (dirtiedPageCount tb) }
    propagateLoop txns1 [base] fuel

/-- Embedding of `page_txn_t::connect_preceder` (alt.cc:1202-1220), called on
transaction `selfId` with argument `precederId`: deduplicated append of
`precederId` to `selfId`'s preceder list, reciprocal append of `selfId` to
`precederId`'s subseqer list, then pre-spawn-flush propagation when `selfId`
already carries the flag. -/
def connectPreceder (txns : Nat → PageTxn) (selfId precederId : Nat) (fuel : Nat) :
    Nat → PageTxn :=
  if precederId ∈ (txns selfId).preceders then txns
  else
    let self := txns selfId
    let txns1 := updateTxn txns selfId
      { self with preceders := self.preceders ++ [precederId] }
    let p := txns1 precederId
    let txns2 := updateTxn txns1 precederId
      { p with subseqers := p.subseqers ++ [selfId] }
    if (txns2 selfId).throttlerAcq.preSpawnFlush then
      propagatePreSpawnFlush txns2 precederId fuel
    else txns2

/-- Embedding of `current_page_t::the_page_for_read_or_deleted` together
with `convert_from_serializer_if_necessary` (alt.cc:1120-1149): a deleted
page yields no body; otherwise the resident body is returned, materializing
it from the serializer first when it is absent. -/
def thePageForReadOrDeleted (cp : CurrentPageS) : Option Nat × CurrentPageS :=
  if cp.isDeleted then (none, cp)
  else
    let body := cp.page.getD cp.blockId
    (some body, { cp with page := some body })

/-- Embedding of `current_page_acq_t::dirty_the_page` (alt.cc:763-797) for an
acquirer of transaction `txId` holding `acqVersion` as its block version.
When the page's last dirtier `prec` is a different transaction, `prec` drops
the page from `pages_dirtied_last_`; if `prec` is in pre-spawn-flush state a
snapshot `(last_dirtier_version_, block_id_, page body, last_dirtier_recency_)`
is appended to `prec`'s `snapshotted_dirtied_pages_`, otherwise
`prec->connect_preceder(the_txn_)` runs; then `txId` records the page in its
`pages_dirtied_last_` and both permits are refreshed.  Finally the page's
last-dirtier fields are set to the acquirer's transaction, the current
recency-index entry and the acquirer's block version. -/
def dirtyThePage (s : CacheState) (txId acqVersion : Nat) (fuel : Nat) : CacheState :=
  let s :=
    if s.page.lastDirtier = some txId then s
    else
      let s1 :=
        match s.page.lastDirtier with
        | none => s
        | some prec =>
          let tp := s.txns prec
          let tp := { tp with pagesDirtiedLast := tp.pagesDirtiedLast.erase s.page.blockId }
          let sA : CacheState := { s with txns := updateTxn s.txns prec tp }
          if tp.throttlerAcq.preSpawnFlush then
            let r := thePageForReadOrDeleted sA.page
            let snap : DirtiedPage :=
              ⟨sA.page.lastDirtierVersion, sA.page.blockId, r.1, sA.page.lastDirtierRecency⟩
            let tpA := sA.txns prec
            { sA with
              page := r.2,
              txns := updateTxn sA.txns prec
                { tpA with snapshottedDirtiedPages := tpA.snapshottedDirtiedPages ++ [snap] } }
          else
            { sA with txns := connectPreceder sA.txns prec txId fuel }
      let tx := s1.txns txId
      let s2 : CacheState := { s1 with
        txns := updateTxn s1.txns txId
          { tx with pagesDirtiedLast := addToSet tx.pagesDirtiedLast s1.page.blockId } }
      let tx2 := s2.txns txId
      let s3 : CacheState := { s2 with
        txns := updateTxn s2.txns txId
          { tx2 with throttlerAcq :=
              updateDirtyPageCount tx2.throttlerAcq (dirtiedPageCount tx2) } }
      match s.page.lastDirtier with
      | none => s3
      | some prec =>
        let tp3 := s3.txns prec
        { s3 with
          txns := updateTxn s3.txns prec
            { tp3 with throttlerAcq :=
                updateDirtyPageCount tp3.throttlerAcq (dirtiedPageCount tp3) } }
  { s with page := { s.page with
      lastDirtier := some txId,
      lastDirtierRecency := s.recency,
      lastDirtierVersion := acqVersion } }

/-- The walk phase of `current_page_t::pulse_pulsables` (alt.cc:1057-1092),
acting on the tail of the acquirer queue from the starting acquirer onward.
Every visited acquirer is pulsed readable; a snapshotted read captures the
current recency and page body (materializing the body first — the updated
resident body is threaded through and returned) and is spliced out of the
queue, its handle living on with its owner; a write acquirer is additionally
pulsed writable when nothing remains before it, and stops the walk.
`hasPrev` records whether, in the mutated queue, anything remains before the
current acquirer. -/
def pulseWalk (recency : Recency) (isDeleted : Bool) (blockId : Nat) :
    Option Nat → Bool → List Acq → List Acq × Option Nat
  | pg, _, [] => ([], pg)
  | pg, hasPrev, cur :: rest =>
    let cur' := { cur with readPulsed := true }
    match cur'.access with
    | Access.read =>
      if cur'.snapshotted then
        let pg' := if isDeleted then pg else some (pg.getD blockId)
        pulseWalk recency isDeleted blockId pg' hasPrev rest
      else
        let r := pulseWalk recency isDeleted blockId pg true rest
        (cur' :: r.1, r.2)
    | Access.write =>
      if hasPrev then (cur' :: rest, pg)
      else ({ cur' with writePulsed := true } :: rest, pg)

/-- Embedding of `current_page_t::pulse_pulsables` (alt.cc:1031-1093) started
at queue position `i`.  First guard: the predecessor of the start must be
absent or a pulsed read.  Second guard: restarting at an already-pulsed
non-snapshotted read whose successor is absent or already pulsed is a
no-op.  Otherwise the walk runs. -/
def pulsePulsables (s : CacheState) (i : Nat) : CacheState :=
  match s.page.acquirers[i]? with
  | none => s
  | some acq =>
    let before := s.page.acquirers.take i
    let rest := s.page.acquirers.drop i
    let prevOk :=
      match before.getLast? with
      | none => true
      | some prev =>
        match prev.access with
        | Access.read => prev.readPulsed
        | Access.write => false
    if prevOk = false then s
    else
      let skip :=
        (match acq.access with
          | Access.read => acq.readPulsed && !acq.snapshotted
          | Access.write => false)
        && (match s.page.acquirers[i + 1]? with
            | none => true
            | some nxt => nxt.readPulsed)
      if skip then s
      else
        let r := pulseWalk s.recency s.page.isDeleted s.page.blockId s.page.page
          (!before.isEmpty) rest
        { s with page := { s.page with acquirers := before ++ r.1, page := r.2 } }

/-- The construction of a `current_page_acq_t` as enqueued by
`current_page_t::add_acquirer` (alt.cc:987-1021): the block version is the
successor of `last_write_acquirer_version_` for a write acquirer and the
unadvanced value for a read acquirer; the signals start unpulsed.
`block_version_t` itself is declared in a header that is not part of the
provided sources; modelled from the spec: a per-block counter where 0 means
unassigned, `subsequent()` is the successor. -/
def mkAcqFor (cp : CurrentPageS) (txOpt : Option Nat) (access : Access) : Acq :=
  { access := access,
    readPulsed := false,
    writePulsed := false,
    snapshotted := false,
    blockVersion :=
      match access with
      | Access.write => cp.lastWriteAcquirerVersion + 1
      | Access.read => cp.lastWriteAcquirerVersion,
    txId := txOpt,
    snapshottedPage := none }

/-- Embedding of `current_page_t::add_acquirer` (alt.cc:987-1021) together
with the `the_txn_->add_acquirer(this)` call of `current_page_acq_t::init`:
for a write acquirer (which always carries its transaction) the live-acq
count is bumped, `last_write_acquirer_version_` advances to the assigned
version, and if the previous last write acquirer is a different transaction
it loses the page from `pages_write_acquired_last_` and becomes a preceder
of the acquiring transaction; finally the acquirer is appended to the queue
and `pulse_pulsables` runs from it. -/
def addAcquirerCore (s : CacheState) (txOpt : Option Nat) (access : Access)
    (fuel : Nat) : CacheState :=
  match access, txOpt with
  | Access.write, some txId =>
    let tx0 := s.txns txId
    let sa : CacheState :=
      { s with txns := updateTxn s.txns txId { tx0 with liveAcqs := tx0.liveAcqs + 1 } }
    let sb : CacheState := { sa with
      page := { sa.page with
        lastWriteAcquirerVersion := sa.page.lastWriteAcquirerVersion + 1 } }
    if sb.page.lastWriteAcquirer ≠ some txId then
      let sc : CacheState :=
        match sb.page.lastWriteAcquirer with
        | some prec =>
          let tp := sb.txns prec
          let sd : CacheState := { sb with
            txns := updateTxn sb.txns prec
              { tp with pagesWriteAcquiredLast :=
                  tp.pagesWriteAcquiredLast.erase sb.page.blockId } }
          { sd with txns := connectPreceder sd.txns txId prec fuel }
        | none => sb
      let tx := sc.txns txId
      { sc with
        txns := updateTxn sc.txns txId
          { tx with pagesWriteAcquiredLast :=
              addToSet tx.pagesWriteAcquiredLast sc.page.blockId },
        page := { sc.page with lastWriteAcquirer := some txId } }
    else sb
  | _, _ => s

/-- The tail of `current_page_t::add_acquirer` (alt.cc:1019-1020): append the
freshly constructed acquirer to the queue and run `pulse_pulsables` from it
(the last position). -/
def addAcquirer (s : CacheState) (txOpt : Option Nat) (access : Access) (fuel : Nat) :
    CacheState :=
  let acq := mkAcqFor s.page txOpt access
  let sMid := addAcquirerCore s txOpt access fuel
  let s2 : CacheState := { sMid with
    page := { sMid.page with acquirers := sMid.page.acquirers ++ [acq] } }
  pulsePulsables s2 (s2.page.acquirers.length - 1)

/-- Embedding of `current_page_t::remove_acquirer` (alt.cc:1023-1029): the
acquirer at position `i` leaves the queue and, if it had a successor,
`pulse_pulsables` runs from the successor (now at position `i`). -/
def removeAcquirer (s : CacheState) (i : Nat) : CacheState :=
  match s.page.acquirers[i]? with
  | none => s
  | some _ =>
    let hadNext := i + 1 < s.page.acquirers.length
    let s' : CacheState := { s with
      page := { s.page with acquirers := s.page.acquirers.eraseIdx i } }
    if hadNext then pulsePulsables s' i else s'

/-- Embedding of `current_page_acq_t::declare_readonly` (alt.cc:700-706):
the acquirer at position `i` demotes its access to read and re-runs
`pulse_pulsables` from itself. -/
def declareReadonly (s : CacheState) (i : Nat) : CacheState :=
  match s.page.acquirers[i]? with
  | none => s
  | some a =>
    let s' : CacheState := { s with
      page := { s.page with
        acquirers := s.page.acquirers.set i { a with access := Access.read } } }
    pulsePulsables s' i

/-- Embedding of `current_page_acq_t::declare_snapshotted` (alt.cc:708-719):
valid only on read acquirers (the source asserts this), idempotent; the
acquirer is marked snapshotted, the page gains a keepalive, and
`pulse_pulsables` runs from the acquirer. -/
def declareSnapshotted (s : CacheState) (i : Nat) : CacheState :=
  match s.page.acquirers[i]? with
  | none => s
  | some a =>
    match a.access with
    | Access.write => s
    | Access.read =>
      if a.snapshotted then s
      else
        let s' : CacheState := { s with
          page := { s.page with
            acquirers := s.page.acquirers.set i { a with snapshotted := true },
            numKeepalives := s.page.numKeepalives + 1 } }
        pulsePulsables s' i

/-- Embedding of `current_page_acq_t::set_recency` (alt.cc:809-820) for an
acquirer of transaction `txId`: the recency-index entry is overwritten and,
when the acquirer's transaction is the current last dirtier,
`last_dirtier_recency_` follows. -/
def setRecencyOp (s : CacheState) (txId : Nat) (rec : Recency) : CacheState :=
  { s with
    recency := rec,
    page :=
      if s.page.lastDirtier = some txId then
        { s.page with lastDirtierRecency := rec }
      else s.page }

/-- Embedding of `current_page_acq_t::mark_deleted` (alt.cc:822-832) with
`current_page_t::mark_deleted` (alt.cc:1104-1118): the page is dirtied, then
marked deleted, its recency-index entry invalidated and its resident body
dropped. -/
def markDeletedOp (s : CacheState) (txId acqVersion fuel : Nat) : CacheState :=
  let s1 := dirtyThePage s txId acqVersion fuel
  { s1 with
    recency := none,
    page := { s1.page with isDeleted := true, page := none } }

/-- The operations of the per-block admission machine, as a step relation on
machine states.  Acquirer release is `current_page_t::remove_acquirer`; the
transaction-side bookkeeping of the destructor does not touch the queue. -/
inductive Step : CacheState → CacheState → Prop where
  | addWrite (s : CacheState) (txId fuel : Nat) :
      Step s (addAcquirer s (some txId) Access.write fuel)
  | addRead (s : CacheState) (fuel : Nat) :
      Step s (addAcquirer s none Access.read fuel)
  | remove (s : CacheState) (i : Nat) : Step s (removeAcquirer s i)
  | readonly (s : CacheState) (i : Nat) : Step s (declareReadonly s i)
  | snapshot (s : CacheState) (i : Nat) : Step s (declareSnapshotted s i)
  | dirty (s : CacheState) (txId acqVersion fuel : Nat) :
      Step s (dirtyThePage s txId acqVersion fuel)
  | recencySet (s : CacheState) (txId : Nat) (rec : Recency) :
      Step s (setRecencyOp s txId rec)
  | deleteMark (s : CacheState) (txId acqVersion fuel : Nat) :
      Step s (markDeletedOp s txId acqVersion fuel)

/-- Reachability under machine steps. -/
def Reaches : CacheState → CacheState → Prop := Relation.ReflTransGen Step

/-- A transaction with no history: empty edge lists, empty page sets, a
fresh permit, flags clear. -/
def emptyTxn : PageTxn :=
  ⟨[], [], [], [], [], [], ⟨0, 0, 0, false⟩, false, false, 0⟩

/-- C5: when an acquirer of transaction `tx` performs the first dirty write
on a current page whose last dirtier `prec` is a different transaction
already in pre-spawn-flush state, the versioned snapshot
`(last_dirtier_version, block_id, page body, last_dirtier_recency)` is
appended to `prec`'s `snapshotted_dirtied_pages`, no preceder or subseqer
edge of any transaction changes, and the page's last dirtier becomes `tx`. -/
theorem c5_dirtier_handoff_snapshot (s : CacheState) (txId acqVersion fuel prec : Nat)
    (hld : s.page.lastDirtier = some prec)
    (hne : prec ≠ txId)
    (hps : (s.txns prec).throttlerAcq.preSpawnFlush = true) :
    ((dirtyThePage s txId acqVersion fuel).txns prec).snapshottedDirtiedPages
        = (s.txns prec).snapshottedDirtiedPages
          ++ [⟨s.page.lastDirtierVersion, s.page.blockId,
               if s.page.isDeleted then none else some (s.page.page.getD s.page.blockId),
               s.page.lastDirtierRecency⟩]
      ∧ (∀ q, ((dirtyThePage s txId acqVersion fuel).txns q).preceders
          = (s.txns q).preceders)
      ∧ (∀ q, ((dirtyThePage s txId acqVersion fuel).txns q).subseqers
          = (s.txns q).subseqers)
      ∧ (dirtyThePage s txId acqVersion fuel).page.lastDirtier = some txId := by
  have hne2 : ¬ (s.page.lastDirtier = some txId) := by
    rw [hld]
    simp [hne]
  have hne3 : txId ≠ prec := fun h => hne h.symm
  refine ⟨?_, ?_, ?_, ?_⟩
  · simp only [dirtyThePage, hld, hne2, if_false, hps, if_true, thePageForReadOrDeleted]
    simp [updateTxn, hne, hne3, hps]
    split <;> rfl
  · intro q
    by_cases hq1 : q = prec <;> by_cases hq2 : q = txId <;>
      simp only [dirtyThePage, hld, hne2, if_false, hps, if_true, thePageForReadOrDeleted] <;>
      simp [updateTxn, hne, hne3, hps, hq1, hq2]
  · intro q
    by_cases hq1 : q = prec <;> by_cases hq2 : q = txId <;>
      simp only [dirtyThePage, hld, hne2, if_false, hps, if_true, thePageForReadOrDeleted] <;>
      simp [updateTxn, hne, hne3, hps, hq1, hq2]
  · simp only [dirtyThePage, hld, hne2, if_false, hps, if_true, thePageForReadOrDeleted]

/-- C2 (amended): when an acquirer of transaction `tx` performs the first
dirty write on a current page whose last dirtier `prec` is a different,
non-null transaction not in pre-spawn-flush state, the code performs
`prec.connect_preceder(tx)` — that is, `tx` becomes a preceder of `prec`
(and `prec` a subseqer of `tx`), tying the two into the same flush, since
`prec` is already a transitive preceder of `tx` through the write-acquirer
chain; `tx`'s own preceder list is not extended by this handoff. -/
theorem c2_dirtier_handoff_connect (s : CacheState) (txId acqVersion fuel prec : Nat)
    (hld : s.page.lastDirtier = some prec)
    (hne : prec ≠ txId)
    (hps : (s.txns prec).throttlerAcq.preSpawnFlush = false)
    (hnp : txId ∉ (s.txns prec).preceders) :
    ((dirtyThePage s txId acqVersion fuel).txns prec).preceders
        = (s.txns prec).preceders ++ [txId]
      ∧ ((dirtyThePage s txId acqVersion fuel).txns txId).subseqers
        = (s.txns txId).subseqers ++ [prec]
      ∧ ((dirtyThePage s txId acqVersion fuel).txns txId).preceders
        = (s.txns txId).preceders
      ∧ (dirtyThePage s txId acqVersion fuel).page.lastDirtier = some txId := by
  have hne2 : ¬ (s.page.lastDirtier = some txId) := by
    rw [hld]
    simp [hne]
  have hne3 : txId ≠ prec := fun h => hne h.symm
  refine ⟨?_, ?_, ?_, ?_⟩ <;>
    simp only [dirtyThePage, hld, hne2, if_false, hps, if_true, connectPreceder,
      propagatePreSpawnFlush] <;>
    simp [updateTxn, hne, hne3, hps, hnp]

/-- Witness for `c5_dirtier_handoff_snapshot`: a concrete two-transaction
state with transaction 1 as last dirtier in pre-spawn-flush state; the dirty
write by transaction 2 appends the snapshot and creates no edge. -/
theorem c5_dirtier_handoff_snapshot_witness :
    (({ page := ⟨9, false, some 9, [], 0, none, 3, some 1, some 5, 3⟩,
        txns := fun i => if i = 1 then { emptyTxn with throttlerAcq := ⟨0, 0, 0, true⟩ }
                         else emptyTxn,
        recency := some 6 } : CacheState).page.lastDirtier = some 1)
      ∧ ((dirtyThePage
            { page := ⟨9, false, some 9, [], 0, none, 3, some 1, some 5, 3⟩,
              txns := fun i => if i = 1 then { emptyTxn with throttlerAcq := ⟨0, 0, 0, true⟩ }
                               else emptyTxn,
              recency := some 6 } 2 7 4).txns 1).snapshottedDirtiedPages
        = [⟨3, 9, some 9, some 5⟩] := by
  refine ⟨rfl, ?_⟩
  have h := c5_dirtier_handoff_snapshot
    { page := ⟨9, false, some 9, [], 0, none, 3, some 1, some 5, 3⟩,
      txns := fun i => if i = 1 then { emptyTxn with throttlerAcq := ⟨0, 0, 0, true⟩ }
                       else emptyTxn,
      recency := some 6 } 2 7 4 1 rfl (by decide) rfl
  rw [h.1]
  rfl

/-- Witness for `c2_dirtier_handoff_connect`: a concrete two-transaction
state with transaction 1 as last dirtier, not in pre-spawn-flush state; the
dirty write by transaction 2 appends 2 to the preceder list of 1. -/
theorem c2_dirtier_handoff_connect_witness :
    (({ page := ⟨9, false, some 9, [], 0, none, 3, some 1, some 5, 3⟩,
        txns := fun _ => emptyTxn,
        recency := some 6 } : CacheState).page.lastDirtier = some 1)
      ∧ ((dirtyThePage
            { page := ⟨9, false, some 9, [], 0, none, 3, some 1, some 5, 3⟩,
              txns := fun _ => emptyTxn,
              recency := some 6 } 2 7 4).txns 1).preceders = [2] := by
  refine ⟨rfl, ?_⟩
  have h := c2_dirtier_handoff_connect
    { page := ⟨9, false, some 9, [], 0, none, 3, some 1, some 5, 3⟩,
      txns := fun _ => emptyTxn,
      recency := some 6 } 2 7 4 1 rfl (by decide) rfl (by decide)
  rw [h.1]
  rfl

/-- C2 counterexample: in the concrete handoff state (transaction 1 is last
dirtier of block 9, not in pre-spawn-flush state, transaction 2 performs its
first dirty write), the claimed edge direction does not appear — transaction
2 gains no preceder at all, and in particular 1 is not a preceder of 2 — and
instead 2 becomes a preceder of 1. -/
theorem c2_counterexample :
    ((dirtyThePage
        { page := ⟨9, false, some 9, [], 0, none, 3, some 1, some 5, 3⟩,
          txns := fun _ => emptyTxn,
          recency := some 6 } 2 7 4).txns 2).preceders = []
      ∧ (1 : Nat) ∉ ((dirtyThePage
          { page := ⟨9, false, some 9, [], 0, none, 3, some 1, some 5, 3⟩,
            txns := fun _ => emptyTxn,
            recency := some 6 } 2 7 4).txns 2).preceders
      ∧ ((dirtyThePage
          { page := ⟨9, false, some 9, [], 0, none, 3, some 1, some 5, 3⟩,
            txns := fun _ => emptyTxn,
            recency := some 6 } 2 7 4).txns 1).preceders = [2] := by
  refine ⟨by decide, by decide, by decide⟩

/-- `pulse_pulsables` only pulses signals, captures snapshots and splices the
queue: every other field of the machine state is untouched. -/
theorem pulsePulsables_preserves (s : CacheState) (i : Nat) :
    (pulsePulsables s i).page.blockId = s.page.blockId
      ∧ (pulsePulsables s i).page.isDeleted = s.page.isDeleted
      ∧ (pulsePulsables s i).page.numKeepalives = s.page.numKeepalives
      ∧ (pulsePulsables s i).page.lastWriteAcquirer = s.page.lastWriteAcquirer
      ∧ (pulsePulsables s i).page.lastWriteAcquirerVersion
        = s.page.lastWriteAcquirerVersion
      ∧ (pulsePulsables s i).page.lastDirtier = s.page.lastDirtier
      ∧ (pulsePulsables s i).page.lastDirtierRecency = s.page.lastDirtierRecency
      ∧ (pulsePulsables s i).page.lastDirtierVersion = s.page.lastDirtierVersion
      ∧ (pulsePulsables s i).txns = s.txns
      ∧ (pulsePulsables s i).recency = s.recency := by
  unfold pulsePulsables
  rcases h : s.page.acquirers[i]? with _ | acq <;> simp only [h] <;>
    (try split_ifs) <;> simp

/-- `dirty_the_page` never touches the write-acquirer version bookkeeping or
the acquirer queue. -/
theorem dirtyThePage_preserves (s : CacheState) (txId v fuel : Nat) :
    (dirtyThePage s txId v fuel).page.lastWriteAcquirerVersion
        = s.page.lastWriteAcquirerVersion
      ∧ (dirtyThePage s txId v fuel).page.acquirers = s.page.acquirers := by
  unfold dirtyThePage
  rcases hld : s.page.lastDirtier with _ | prec <;>
    simp only [hld, thePageForReadOrDeleted] <;>
    split_ifs <;>
    exact ⟨rfl, rfl⟩

/-- Short form of the version component of `pulsePulsables_preserves`. -/
theorem pulse_lwa (t : CacheState) (i : Nat) :
    (pulsePulsables t i).page.lastWriteAcquirerVersion
      = t.page.lastWriteAcquirerVersion :=
  (pulsePulsables_preserves t i).2.2.2.2.1

/-- Adding a write acquirer advances `last_write_acquirer_version_` by
exactly one. -/
theorem addAcquirer_write_lwaVersion (s : CacheState) (txId fuel : Nat) :
    (addAcquirer s (some txId) Access.write fuel).page.lastWriteAcquirerVersion
      = s.page.lastWriteAcquirerVersion + 1 := by
  unfold addAcquirer
  rw [pulse_lwa]
  unfold addAcquirerCore
  dsimp only
  rcases hlw : s.page.lastWriteAcquirer with _ | prec <;>
    simp only [hlw] <;> split_ifs <;> rfl

/-- Adding a read acquirer leaves `last_write_acquirer_version_` unchanged. -/
theorem addAcquirer_read_lwaVersion (s : CacheState) (fuel : Nat) :
    (addAcquirer s none Access.read fuel).page.lastWriteAcquirerVersion
      = s.page.lastWriteAcquirerVersion := by
  unfold addAcquirer
  rw [pulse_lwa]
  rfl

/-- The pulse walk over a single-element queue holding a non-snapshotted
acquirer keeps that acquirer (possibly with signals pulsed) and the page
body. -/
theorem pulseWalk_single (r : Recency) (d : Bool) (b : Nat) (pg : Option Nat)
    (hp : Bool) (a : Acq) (hsnap : a.snapshotted = false) :
    ∃ a1 : Acq, pulseWalk r d b pg hp [a] = ([a1], pg)
      ∧ a1.blockVersion = a.blockVersion ∧ a1.access = a.access
      ∧ a1.txId = a.txId := by
  rcases hacc : a.access <;> rcases hhp : hp
  · exact ⟨{ a with readPulsed := true }, by simp [pulseWalk, hacc, hsnap], rfl, hacc, rfl⟩
  · exact ⟨{ a with readPulsed := true }, by simp [pulseWalk, hacc, hsnap], rfl, hacc, rfl⟩
  · exact ⟨{ a with readPulsed := true, writePulsed := true },
      by simp [pulseWalk, hacc, hsnap], rfl, hacc, rfl⟩
  · exact ⟨{ a with readPulsed := true }, by simp [pulseWalk, hacc, hsnap], rfl, hacc, rfl⟩

/-- Running `pulse_pulsables` from the last queue position when the last
acquirer is not snapshotted keeps the queue shape: everything before stays,
and the last acquirer survives with its version, access and transaction
unchanged (only its signals may be pulsed). -/
theorem pulsePulsables_last (s : CacheState) (q0 : List Acq) (a0 : Acq)
    (hq : s.page.acquirers = q0 ++ [a0]) (hsnap : a0.snapshotted = false) :
    ∃ a1 : Acq, (pulsePulsables s q0.length).page.acquirers = q0 ++ [a1]
      ∧ a1.blockVersion = a0.blockVersion ∧ a1.access = a0.access
      ∧ a1.txId = a0.txId := by
  have hget : s.page.acquirers[q0.length]? = some a0 := by
    rw [hq]
    rw [List.getElem?_append_right (le_refl _)]
    simp
  have htake : s.page.acquirers.take q0.length = q0 := by
    rw [hq, List.take_left]
  have hdrop : s.page.acquirers.drop q0.length = [a0] := by
    rw [hq, List.drop_left]
  obtain ⟨a1, hw, hv, hacc, htx⟩ := pulseWalk_single s.recency s.page.isDeleted
    s.page.blockId s.page.page (!q0.isEmpty) a0 hsnap
  unfold pulsePulsables
  rw [hget]
  simp only [htake, hdrop]
  split_ifs
  · exact ⟨a0, hq, rfl, rfl, rfl⟩
  · exact ⟨a0, hq, rfl, rfl, rfl⟩
  · rw [hw]
    exact ⟨a1, rfl, hv, hacc, htx⟩

/-- No machine operation ever decreases `last_write_acquirer_version_`. -/
theorem step_lwaVersion_le (s1 s2 : CacheState) (hstep : Step s1 s2) :
    s1.page.lastWriteAcquirerVersion ≤ s2.page.lastWriteAcquirerVersion := by
  cases hstep with
  | addWrite txId fuel =>
    rw [addAcquirer_write_lwaVersion]
    exact Nat.le_succ _
  | addRead fuel =>
    rw [addAcquirer_read_lwaVersion]
  | remove i =>
    unfold removeAcquirer
    rcases h : s1.page.acquirers[i]? with _ | a <;> simp only [h]
    · exact le_refl _
    · split_ifs
      · rw [pulse_lwa]
      · exact le_refl _
  | readonly i =>
    unfold declareReadonly
    rcases h : s1.page.acquirers[i]? with _ | a <;> simp only [h]
    · exact le_refl _
    · rw [pulse_lwa]
  | snapshot i =>
    unfold declareSnapshotted
    rcases h : s1.page.acquirers[i]? with _ | a <;> simp only [h]
    · exact le_refl _
    · rcases a.access
      · split_ifs
        · exact le_refl _
        · rw [pulse_lwa]
      · exact le_refl _
  | dirty txId v fuel =>
    exact le_of_eq ((dirtyThePage_preserves s1 txId v fuel).1).symm
  | recencySet txId rec =>
    unfold setRecencyOp
    split_ifs <;> exact le_refl _
  | deleteMark txId v fuel =>
    unfold markDeletedOp
    exact le_of_eq ((dirtyThePage_preserves s1 txId v fuel).1).symm

/-- Reachability never decreases `last_write_acquirer_version_`. -/
theorem reaches_lwaVersion_le (s1 s2 : CacheState) (h : Reaches s1 s2) :
    s1.page.lastWriteAcquirerVersion ≤ s2.page.lastWriteAcquirerVersion := by
  induction h with
  | refl => exact le_refl _
  | tail _ hstep ih => exact le_trans ih (step_lwaVersion_le _ _ hstep)

/-- The acquirer enqueued by `add_acquirer` ends up at the back of the queue
with exactly the block version assigned at enqueue time. -/
theorem addAcquirer_appends (s : CacheState) (txOpt : Option Nat) (access : Access)
    (fuel : Nat) :
    ∃ (q : List Acq) (a : Acq),
      (addAcquirer s txOpt access fuel).page.acquirers = q ++ [a]
        ∧ a.blockVersion = (mkAcqFor s.page txOpt access).blockVersion
        ∧ a.access = access ∧ a.txId = txOpt := by
  unfold addAcquirer
  have hq : ({ addAcquirerCore s txOpt access fuel with
      page := { (addAcquirerCore s txOpt access fuel).page with
        acquirers := (addAcquirerCore s txOpt access fuel).page.acquirers
          ++ [mkAcqFor s.page txOpt access] } } : CacheState).page.acquirers
      = (addAcquirerCore s txOpt access fuel).page.acquirers
        ++ [mkAcqFor s.page txOpt access] := rfl
  have hlen : (((addAcquirerCore s txOpt access fuel).page.acquirers
      ++ [mkAcqFor s.page txOpt access]).length - 1)
      = (addAcquirerCore s txOpt access fuel).page.acquirers.length := by
    simp
  obtain ⟨a1, hres, hv, hacc, htx⟩ := pulsePulsables_last _
    (addAcquirerCore s txOpt access fuel).page.acquirers
    (mkAcqFor s.page txOpt access) hq rfl
  refine ⟨(addAcquirerCore s txOpt access fuel).page.acquirers, a1, ?_, hv, ?_, ?_⟩
  · simpa [hlen] using hres
  · rw [hacc]
    rfl
  · rw [htx]
    rfl

/-- A freshly constructed `current_page_t` slot (alt.cc:870-880): empty
queue, no last write acquirer or dirtier, and `last_write_acquirer_version_`
already advanced once so that assigned acquirer versions are distinguishable
from the unassigned value 0. -/
def initState (blockId : Nat) : CacheState :=
  { page := ⟨blockId, false, none, [], 0, none, 1, none, none, 0⟩,
    txns := fun _ => emptyTxn,
    recency := some 0 }

/-- C6: a write acquirer is assigned the successor of the page's
`last_write_acquirer_version` at enqueue time and the stored version advances
to that same value, while a read acquirer is assigned the current, unadvanced
version which stays put; no machine operation ever decreases the stored
version, so any write acquirer enqueued after another (with any machine
activity in between) receives a strictly greater block version. -/
theorem c6_block_version_monotonicity (s : CacheState) (txId fuel : Nat) :
    (mkAcqFor s.page (some txId) Access.write).blockVersion
        = s.page.lastWriteAcquirerVersion + 1
      ∧ (addAcquirer s (some txId) Access.write fuel).page.lastWriteAcquirerVersion
        = s.page.lastWriteAcquirerVersion + 1
      ∧ (∃ (q : List Acq) (a : Acq),
          (addAcquirer s (some txId) Access.write fuel).page.acquirers = q ++ [a]
            ∧ a.blockVersion = s.page.lastWriteAcquirerVersion + 1
            ∧ a.access = Access.write)
      ∧ (mkAcqFor s.page none Access.read).blockVersion
        = s.page.lastWriteAcquirerVersion
      ∧ (addAcquirer s none Access.read fuel).page.lastWriteAcquirerVersion
        = s.page.lastWriteAcquirerVersion
      ∧ (∀ t1 t2 : CacheState, Step t1 t2 →
          t1.page.lastWriteAcquirerVersion ≤ t2.page.lastWriteAcquirerVersion)
      ∧ (∀ (t2 : CacheState) (txB : Nat),
          Reaches (addAcquirer s (some txId) Access.write fuel) t2 →
          (mkAcqFor s.page (some txId) Access.write).blockVersion
            < (mkAcqFor t2.page (some txB) Access.write).blockVersion) := by
  refine ⟨rfl, addAcquirer_write_lwaVersion s txId fuel, ?_, rfl,
    addAcquirer_read_lwaVersion s fuel, step_lwaVersion_le, ?_⟩
  · obtain ⟨q, a, hres, hv, hacc, _⟩ := addAcquirer_appends s (some txId) Access.write fuel
    exact ⟨q, a, hres, hv, hacc⟩
  · intro t2 txB hre
    have h1 := reaches_lwaVersion_le _ _ hre
    rw [addAcquirer_write_lwaVersion s txId fuel] at h1
    show s.page.lastWriteAcquirerVersion + 1 < t2.page.lastWriteAcquirerVersion + 1
    omega

/-- Witness for `c6_block_version_monotonicity`: starting from a fresh
current page (stored version 1), transaction 1 and then transaction 2
acquire for write; the second write acquirer's assigned version 3 is
strictly greater than the first's version 2, the reachability hypothesis
being the single step from the first state to the second. -/
theorem c6_block_version_monotonicity_witness :
    Reaches (addAcquirer (initState 1) (some 1) Access.write 1)
        (addAcquirer (addAcquirer (initState 1) (some 1) Access.write 1)
          (some 2) Access.write 1)
      ∧ (mkAcqFor (initState 1).page (some 1) Access.write).blockVersion
        < (mkAcqFor
            (addAcquirer (addAcquirer (initState 1) (some 1) Access.write 1)
              (some 2) Access.write 1).page
            (some 2) Access.write).blockVersion :=
  ⟨Relation.ReflTransGen.single
      (Step.addWrite (addAcquirer (initState 1) (some 1) Access.write 1) 2 1),
    (c6_block_version_monotonicity (initState 1) 1 1).2.2.2.2.2.2
      (addAcquirer (addAcquirer (initState 1) (some 1) Access.write 1)
        (some 2) Access.write 1) 2
      (Relation.ReflTransGen.single
        (Step.addWrite (addAcquirer (initState 1) (some 1) Access.write 1) 2 1))⟩

/-! ### Per-block FIFO admission (claim C4)

The safety invariant: no acquirer positioned after a write acquirer ever has
its read signal pulsed. -/

/-- No acquirer strictly after a write acquirer has been pulsed readable. -/
def CleanQ : List Acq → Prop
  | [] => True
  | a :: rest =>
    (a.access = Access.write → ∀ b ∈ rest, b.readPulsed = false) ∧ CleanQ rest

theorem cleanQ_append (xs ys : List Acq) :
    CleanQ (xs ++ ys) ↔
      CleanQ xs ∧ CleanQ ys
        ∧ (∀ a ∈ xs, a.access = Access.write → ∀ b ∈ ys, b.readPulsed = false) := by
  induction xs with
  | nil =>
    constructor
    · intro h
      exact ⟨trivial, h, fun a ha => absurd ha (List.not_mem_nil a)⟩
    · intro h
      exact h.2.1
  | cons x xs ih =>
    constructor
    · intro h
      obtain ⟨hx, hrest⟩ := h
      obtain ⟨h1, h2, h3⟩ := ih.mp hrest
      refine ⟨⟨fun hw b hb => hx hw b (List.mem_append_left ys hb), h1⟩, h2, ?_⟩
      intro a ha hw b hb
      rcases List.mem_cons.mp ha with rfl | ha
      · exact hx hw b (List.mem_append_right xs hb)
      · exact h3 a ha hw b hb
    · rintro ⟨⟨hx, h1⟩, h2, h3⟩
      refine ⟨?_, ih.mpr ⟨h1, h2, fun a ha => h3 a (List.mem_cons_of_mem x ha)⟩⟩
      intro hw b hb
      rcases List.mem_append.mp hb with hb | hb
      · exact hx hw b hb
      · exact h3 x (List.mem_cons_self x xs) hw b hb

theorem cleanQ_sublist {l l' : List Acq} (hsub : l'.Sublist l) (h : CleanQ l) :
    CleanQ l' := by
  induction hsub with
  | slnil => trivial
  | cons a _ ih => exact ih h.2
  | cons₂ a hsub ih =>
    exact ⟨fun hw b hb => h.1 hw b (hsub.subset hb), ih h.2⟩

/-- Replacing one queue element by one with the same pulse state whose access
is read or unchanged preserves the invariant. -/
theorem cleanQ_set {q : List Acq} {i : Nat} {a a' : Acq} (hget : q[i]? = some a)
    (hpulse : a'.readPulsed = a.readPulsed)
    (hacc : a'.access = Access.read ∨ a'.access = a.access) (h : CleanQ q) :
    CleanQ (q.set i a') := by
  induction q generalizing i with
  | nil => trivial
  | cons x xs ih =>
    cases i with
    | zero =>
      simp only [List.getElem?_cons_zero, Option.some.injEq] at hget
      subst hget
      refine ⟨?_, h.2⟩
      intro hw b hb
      rcases hacc with hacc | hacc
      · rw [hacc] at hw
        cases hw
      · exact h.1 (hacc ▸ hw) b hb
    | succ i =>
      simp only [List.getElem?_cons_succ] at hget
      refine ⟨?_, ih hget h.2⟩
      intro hw b hb
      rcases List.mem_or_eq_of_mem_set hb with hb | rfl
      · exact h.1 hw b hb
      · rw [hpulse]
        exact h.1 hw a (List.getElem?_mem hget)

/-- The pulse walk preserves the invariant on the walked segment. -/
theorem pulseWalk_clean (r : Recency) (d : Bool) (bi : Nat) :
    ∀ (q : List Acq) (pg : Option Nat) (hp : Bool), CleanQ q →
      CleanQ (pulseWalk r d bi pg hp q).1 := by
  intro q
  induction q with
  | nil => intro pg hp h; exact h
  | cons a rest ih =>
    intro pg hp h
    unfold pulseWalk
    rcases hacc : a.access
    · simp only [hacc]
      by_cases hsnap : a.snapshotted
      · simp only [hsnap, if_true]
        exact ih _ _ h.2
      · simp only [hsnap, if_false, Bool.false_eq_true]
        refine ⟨?_, ih _ _ h.2⟩
        intro hw
        simp [hacc] at hw
    · simp only [hacc]
      split_ifs
      · exact ⟨fun _ b hb => h.1 hacc b hb, h.2⟩
      · exact ⟨fun _ b hb => h.1 hacc b hb, h.2⟩

/-- Under the invariant, when the first guard of `pulse_pulsables` sees a
pulsed read (or nothing) as the predecessor of the start, no write acquirer
sits anywhere before the start. -/
theorem cleanQ_no_write_before (xs : List Acq) (prev : Acq)
    (h : CleanQ xs) (hlast : xs.getLast? = some prev)
    (hread : prev.access = Access.read) (hpulsed : prev.readPulsed = true) :
    ∀ a ∈ xs, a.access ≠ Access.write := by
  obtain ⟨b1, rfl⟩ := List.getLast?_eq_some_iff.mp hlast
  obtain ⟨hb1, hsing, hcross⟩ := (cleanQ_append b1 [prev]).mp h
  intro a ha hw
  rcases List.mem_append.mp ha with ha | ha
  · have hpp := hcross a ha hw prev (List.mem_cons_self prev [])
    rw [hpulsed] at hpp
    cases hpp
  · rcases List.mem_cons.mp ha with rfl | ha
    · rw [hread] at hw
      cases hw
    · cases ha

/-- `pulse_pulsables` preserves the invariant. -/
theorem pulsePulsables_clean (s : CacheState) (i : Nat)
    (h : CleanQ s.page.acquirers) : CleanQ (pulsePulsables s i).page.acquirers := by
  unfold pulsePulsables
  rcases hget : s.page.acquirers[i]? with _ | acq
  · exact h
  simp only
  have hsplit : s.page.acquirers.take i ++ s.page.acquirers.drop i
      = s.page.acquirers := List.take_append_drop i s.page.acquirers
  have hclean : CleanQ (s.page.acquirers.take i ++ s.page.acquirers.drop i) := by
    rwa [hsplit]
  obtain ⟨hcTake, hcDrop, hcCross⟩ := (cleanQ_append _ _).mp hclean
  split_ifs with h1 h2
  · exact h
  · exact h
  · -- the walk runs: the first guard saw no predecessor or a pulsed read
    rcases hlast : (s.page.acquirers.take i).getLast? with _ | prev
    · -- no predecessor: the prefix is empty
      have hempty : s.page.acquirers.take i = [] := List.getLast?_eq_none_iff.mp hlast
      rw [hempty]
      simp only [List.nil_append]
      exact pulseWalk_clean _ _ _ _ _ _ hcDrop
    · -- predecessor is a pulsed read, so no write sits before the start
      have hprev : prev.access = Access.read ∧ prev.readPulsed = true := by
        rcases hpa : prev.access
        · constructor
          · rfl
          · by_contra hnp
            apply h1
            simp only [hlast, hpa]
            simp only [Bool.not_eq_true] at hnp
            exact hnp
        · exfalso
          apply h1
          simp only [hlast, hpa]
      have hnw : ∀ a ∈ s.page.acquirers.take i, a.access ≠ Access.write :=
        cleanQ_no_write_before _ prev hcTake hlast hprev.1 hprev.2
      rw [cleanQ_append]
      refine ⟨hcTake, pulseWalk_clean _ _ _ _ _ _ hcDrop, ?_⟩
      intro a ha hw
      exact absurd hw (hnw a ha)

/-- The graph-and-version part of `add_acquirer` does not touch the acquirer
queue. -/
theorem addAcquirerCore_acquirers (s : CacheState) (txOpt : Option Nat)
    (access : Access) (fuel : Nat) :
    (addAcquirerCore s txOpt access fuel).page.acquirers = s.page.acquirers := by
  unfold addAcquirerCore
  rcases access <;> rcases txOpt with _ | txId
  · rfl
  · rfl
  · rfl
  · dsimp only
    rcases hlw : s.page.lastWriteAcquirer with _ | prec <;>
      simp only [hlw] <;> split_ifs <;> rfl

/-- The invariant holds for a single-element queue. -/
theorem cleanQ_singleton (a : Acq) : CleanQ [a] :=
  ⟨fun _ b hb => absurd hb (List.not_mem_nil b), trivial⟩

/-- Conditionally pulsing preserves the invariant. -/
theorem cleanQ_ite_pulse (c : Prop) [Decidable c] (t : CacheState) (j : Nat)
    (hc : CleanQ t.page.acquirers) :
    CleanQ (if c then pulsePulsables t j else t).page.acquirers := by
  split_ifs
  · exact pulsePulsables_clean _ _ hc
  · exact hc

/-- Every machine operation preserves the no-pulsed-read-after-a-write
invariant. -/
theorem step_clean (s1 s2 : CacheState) (hstep : Step s1 s2)
    (h : CleanQ s1.page.acquirers) : CleanQ s2.page.acquirers := by
  cases hstep with
  | addWrite txId fuel =>
    apply pulsePulsables_clean
    show CleanQ ((addAcquirerCore s1 (some txId) Access.write fuel).page.acquirers
      ++ [mkAcqFor s1.page (some txId) Access.write])
    rw [addAcquirerCore_acquirers, cleanQ_append]
    exact ⟨h, cleanQ_singleton _, fun a _ _ b hb => by
      rcases List.mem_cons.mp hb with rfl | hb
      · rfl
      · cases hb⟩
  | addRead fuel =>
    apply pulsePulsables_clean
    show CleanQ ((addAcquirerCore s1 none Access.read fuel).page.acquirers
      ++ [mkAcqFor s1.page none Access.read])
    rw [addAcquirerCore_acquirers, cleanQ_append]
    exact ⟨h, cleanQ_singleton _, fun a _ _ b hb => by
      rcases List.mem_cons.mp hb with rfl | hb
      · rfl
      · cases hb⟩
  | remove i =>
    unfold removeAcquirer
    rcases hget : s1.page.acquirers[i]? with _ | a
    · exact h
    · have herase : CleanQ (s1.page.acquirers.eraseIdx i) :=
        cleanQ_sublist (List.eraseIdx_sublist s1.page.acquirers i) h
      simp only [hget]
      exact cleanQ_ite_pulse _ _ _ herase
  | readonly i =>
    unfold declareReadonly
    rcases hget : s1.page.acquirers[i]? with _ | a
    · exact h
    · exact pulsePulsables_clean _ _
        (cleanQ_set hget rfl (Or.inl rfl) h)
  | snapshot i =>
    unfold declareSnapshotted
    rcases hget : s1.page.acquirers[i]? with _ | a
    · exact h
    · simp only [hget]
      rcases hacc : a.access
      · simp only [hacc]
        by_cases hsnap : a.snapshotted = true
        · simp only [hsnap, if_true]
          exact h
        · simp only [if_neg hsnap]
          exact pulsePulsables_clean _ _
            (cleanQ_set hget rfl (Or.inr hacc.symm) h)
      · simp only [hacc]
        exact h
  | dirty txId v fuel =>
    rw [(dirtyThePage_preserves s1 txId v fuel).2]
    exact h
  | recencySet txId rec =>
    unfold setRecencyOp
    split_ifs <;> exact h
  | deleteMark txId v fuel =>
    show CleanQ (dirtyThePage s1 txId v fuel).page.acquirers
    rw [(dirtyThePage_preserves s1 txId v fuel).2]
    exact h

/-- Reachability preserves the invariant. -/
theorem reaches_clean (s1 s2 : CacheState) (hre : Reaches s1 s2)
    (h : CleanQ s1.page.acquirers) : CleanQ s2.page.acquirers := by
  induction hre with
  | refl => exact h
  | tail _ hstep ih => exact step_clean _ _ hstep ih

/-- C4: starting from any state whose acquirer queue satisfies the invariant
(in particular a fresh current page, whose queue is empty), in every
reachable state, whenever a write acquirer A₁ sits anywhere before an
acquirer A₂ in the queue, A₂'s read-available signal is not pulsed: a reader
enqueued behind a write acquirer observes read-availability only after the
writer has left the queue or demoted itself to read access. -/
theorem c4_per_block_fifo (s0 s : CacheState) (h0 : CleanQ s0.page.acquirers)
    (hre : Reaches s0 s) (l1 l2 l3 : List Acq) (a1 a2 : Acq)
    (hq : s.page.acquirers = l1 ++ a1 :: (l2 ++ a2 :: l3))
    (hw : a1.access = Access.write) :
    a2.readPulsed = false := by
  have hcl : CleanQ s.page.acquirers := reaches_clean s0 s hre h0
  rw [hq] at hcl
  obtain ⟨_, hc2, _⟩ := (cleanQ_append _ _).mp hcl
  exact hc2.1 hw a2 (List.mem_append_right l2 (List.mem_cons_self a2 l3))

/-- Witness for `c4_per_block_fifo`: from a fresh current page, transaction 1
enqueues a write acquirer (pulsed readable and writable) and then a read
acquirer is enqueued behind it; in the resulting state the read acquirer is
still not pulsed readable. -/
theorem c4_per_block_fifo_witness :
    CleanQ (initState 5).page.acquirers
      ∧ (addAcquirer (addAcquirer (initState 5) (some 1) Access.write 1)
          none Access.read 1).page.acquirers
        = [] ++ (⟨Access.write, true, true, false, 2, some 1, none⟩ : Acq)
            :: ([] ++ (⟨Access.read, false, false, false, 2, none, none⟩ : Acq) :: [])
      ∧ (⟨Access.read, false, false, false, 2, none, none⟩ : Acq).readPulsed = false :=
  ⟨trivial, by decide,
    c4_per_block_fifo (initState 5) _ trivial
      (Relation.ReflTransGen.tail
        (Relation.ReflTransGen.single (Step.addWrite (initState 5) 1 1))
        (Step.addRead (addAcquirer (initState 5) (some 1) Access.write 1) 1))
      [] [] [] ⟨Access.write, true, true, false, 2, some 1, none⟩
      ⟨Access.read, false, false, false, 2, none, none⟩ (by decide) rfl⟩

/-! ## The flush planner (`page_cache_t::maximal_flushable_txn_set`)

The algorithm walks the transaction graph reading only `preceders_`,
`subseqers_` and `began_waiting_for_flush_` — none of which it modifies —
and mutating only the per-transaction `mark_` field.  The embedding
therefore fixes the graph as a structure of functions over `Nat`
transaction ids (with an explicit finite carrier `nodes`) and threads the
marks through the loop as a shadowing association list (`getMark` returns
the most recently set value, `marked_not` for transactions never marked). -/

inductive Mark where
  | not
  | blue
  | green
  | red
deriving DecidableEq, Repr

abbrev Marks := List (Nat × Mark)

def getMark : Marks → Nat → Mark
  | [], _ => Mark.not
  | (u, m) :: rest, t => if t = u then m else getMark rest t

def setMark (ms : Marks) (t : Nat) (m : Mark) : Marks := (t, m) :: ms

@[simp]
theorem getMark_setMark (ms : Marks) (t u : Nat) (m : Mark) :
    getMark (setMark ms t m) u = if u = t then m else getMark ms u := rfl

/-- The transaction graph seen by `maximal_flushable_txn_set`: the finite
carrier of live transactions, the `preceders_` and `subseqers_` adjacency
lists, and the `began_waiting_for_flush_` flag. -/
structure TxnGraph where
  nodes : List Nat
  preceders : Nat → List Nat
  subseqers : Nat → List Nat
  ready : Nat → Bool

/-- Well-formedness of the graph as maintained by `connect_preceder` /
`remove_preceder` / `remove_subseqer`: edges stay inside the carrier and
every preceder edge has its reciprocal subseqer edge. -/
def GraphWF (g : TxnGraph) : Prop :=
  ∀ t ∈ g.nodes,
    (∀ p ∈ g.preceders t, p ∈ g.nodes ∧ t ∈ g.subseqers p)
      ∧ (∀ u ∈ g.subseqers t, u ∈ g.nodes ∧ t ∈ g.preceders u)

instance (g : TxnGraph) : Decidable (GraphWF g) := by
  unfold GraphWF
  infer_instance

/-- The loop state of the flush-set walk: the marks, the `blue` stack (top
first, as the C++ vector used via `back`/`pop_back`) and the `colored`
vector (in push order). -/
structure LoopState where
  ms : Marks
  blue : List Nat
  colored : List Nat

/-- The preceder scan of one popped transaction (alt.cc:1739-1754): an
unready or red preceder poisons the transaction; an unmarked (and ready,
not red) preceder is marked blue and pushed. -/
def precLoop (g : TxnGraph) : List Nat → LoopState → Bool → LoopState × Bool
  | [], st, poisoned => (st, poisoned)
  | p :: ps, st, poisoned =>
    if g.ready p = false ∨ getMark st.ms p = Mark.red then
      precLoop g ps st true
    else if getMark st.ms p = Mark.not then
      precLoop g ps
        ⟨setMark st.ms p Mark.blue, p :: st.blue, st.colored ++ [p]⟩ poisoned
    else
      precLoop g ps st poisoned

/-- The subseqer scan of one processed transaction (alt.cc:1758-1778): when
the transaction stayed green, its ready unmarked subseqers are marked blue
and pushed (and colored); when it turned red, its green subseqers are
re-marked blue and re-pushed (already colored). -/
def subsLoop (g : TxnGraph) (poisoned : Bool) : List Nat → LoopState → LoopState
  | [], st => st
  | u :: us, st =>
    if g.ready u = false then
      subsLoop g poisoned us st
    else if getMark st.ms u = Mark.not then
      if poisoned then subsLoop g poisoned us st
      else subsLoop g poisoned us
        ⟨setMark st.ms u Mark.blue, u :: st.blue, st.colored ++ [u]⟩
    else if getMark st.ms u = Mark.green then
      if poisoned then
        subsLoop g poisoned us ⟨setMark st.ms u Mark.blue, u :: st.blue, st.colored⟩
      else subsLoop g poisoned us st
    else
      subsLoop g poisoned us st

/-- The main loop (alt.cc:1731-1779), fuelled: each iteration pops one blue
transaction, scans its preceders, marks it green or red, and scans its
subseqers.  Since every transaction is processed at most twice, fuel twice
the number of transactions plus one always suffices; exhausted fuel yields
`none`. -/
def flushLoop (g : TxnGraph) : Nat → LoopState → Option LoopState
  | 0, _ => none
  | fuel + 1, st =>
    match st.blue with
    | [] => some st
    | txn :: rest =>
      let pr := precLoop g (g.preceders txn) ⟨st.ms, rest, st.colored⟩ false
      let st2 : LoopState :=
        ⟨setMark pr.1.ms txn (if pr.2 then Mark.red else Mark.green),
          pr.1.blue, pr.1.colored⟩
      flushLoop g fuel (subsLoop g pr.2 (g.subseqers txn) st2)

/-- The final pass (alt.cc:1781-1795): walk `colored`, reset every mark to
`not`, and keep the transactions that were green, in order. -/
def cleanupMarks : Marks → List Nat → Marks × List Nat
  | ms, [] => (ms, [])
  | ms, t :: ts =>
    let m := getMark ms t
    let r := cleanupMarks (setMark ms t Mark.not) ts
    (r.1, if m = Mark.green then t :: r.2 else r.2)

/-- Embedding of `page_cache_t::maximal_flushable_txn_set` (alt.cc:1689-1797)
run on base transaction `base` with the given fuel: the result is the list
of flushable transactions together with the final marks. -/
def maximalFlushableTxnSet (g : TxnGraph) (fuel : Nat) (base : Nat) :
    Option (List Nat × Marks) :=
  match flushLoop g fuel ⟨setMark [] base Mark.blue, [base], [base]⟩ with
  | none => none
  | some st =>
    let r := cleanupMarks st.ms st.colored
    some (r.2, r.1)

/-- One preceder step of the happens-before reachability used to state the
claim: `PrecEdge g a b` when `b` is a preceder of `a`. -/
def PrecEdge (g : TxnGraph) (a b : Nat) : Prop := b ∈ g.preceders a

/-- Transitive-reflexive preceder reachability. -/
def PrecReach (g : TxnGraph) : Nat → Nat → Prop :=
  Relation.ReflTransGen (PrecEdge g)

/-- Every transaction in the preceder closure of `t` (including `t`) has
begun waiting for flush. -/
def AllReadyClosure (g : TxnGraph) (t : Nat) : Prop :=
  ∀ u, PrecReach g t u → g.ready u = true

/-- A set of transactions that is flushable in the sense of the claim: every
member is ready and every preceder of a member is a member. -/
def FlushableSet (g : TxnGraph) (s : List Nat) : Prop :=
  ∀ t ∈ s, g.ready t = true ∧ ∀ p ∈ g.preceders t, p ∈ s

instance (g : TxnGraph) (s : List Nat) : Decidable (FlushableSet g s) := by
  unfold FlushableSet
  infer_instance

/-- Full characterization of the preceder scan: the new marks are a fresh
set of previously unmarked, ready preceders that get marked blue, pushed on
the stack and appended to `colored`; a clean (unpoisoned) result certifies
every scanned preceder ready and neither red nor unmarked afterwards, and a
poisoned result exhibits an unready or red preceder (unless the scan started
poisoned). -/
theorem precLoop_spec (g : TxnGraph) (ps : List Nat) :
    ∀ (st : LoopState) (poisoned : Bool),
      ∃ news : List Nat,
        (∀ u, getMark (precLoop g ps st poisoned).1.ms u
            = if u ∈ news then Mark.blue else getMark st.ms u)
          ∧ (precLoop g ps st poisoned).1.blue = news.reverse ++ st.blue
          ∧ (precLoop g ps st poisoned).1.colored = st.colored ++ news
          ∧ news.Nodup
          ∧ (∀ u ∈ news, getMark st.ms u = Mark.not ∧ g.ready u = true ∧ u ∈ ps)
          ∧ ((precLoop g ps st poisoned).2 = false →
              poisoned = false
                ∧ ∀ p ∈ ps, g.ready p = true
                    ∧ getMark (precLoop g ps st poisoned).1.ms p ≠ Mark.red
                    ∧ getMark (precLoop g ps st poisoned).1.ms p ≠ Mark.not)
          ∧ ((precLoop g ps st poisoned).2 = true →
              poisoned = true
                ∨ ∃ p ∈ ps, g.ready p = false ∨ getMark st.ms p = Mark.red) := by
  induction ps with
  | nil =>
    intro st poisoned
    refine ⟨[], by simp [precLoop], by simp [precLoop], by simp [precLoop],
      List.nodup_nil, ?_, ?_, ?_⟩
    · intro u hu
      cases hu
    · intro hf
      have : poisoned = false := hf
      exact ⟨this, fun p hp => absurd hp (List.not_mem_nil p)⟩
    · intro ht
      exact Or.inl ht
  | cons p ps ih =>
    intro st poisoned
    by_cases hc1 : g.ready p = false ∨ getMark st.ms p = Mark.red
    · -- poisoning preceder
      have hred : precLoop g (p :: ps) st poisoned = precLoop g ps st true := by
        conv_lhs => unfold precLoop
        rw [if_pos hc1]
      obtain ⟨news, m1, m2, m3, m4, m5, m6, m7⟩ := ih st true
      rw [hred]
      refine ⟨news, m1, m2, m3, m4,
        fun u hu => ⟨(m5 u hu).1, (m5 u hu).2.1, List.mem_cons_of_mem _ (m5 u hu).2.2⟩,
        ?_, ?_⟩
      · intro hf
        exact absurd (m6 hf).1 (by simp)
      · intro _
        exact Or.inr ⟨p, List.mem_cons_self _ _, hc1⟩
    · by_cases hc2 : getMark st.ms p = Mark.not
      · -- fresh preceder: push
        have hpush : precLoop g (p :: ps) st poisoned
            = precLoop g ps
                ⟨setMark st.ms p Mark.blue, p :: st.blue, st.colored ++ [p]⟩ poisoned := by
          conv_lhs => unfold precLoop
          rw [if_neg hc1, if_pos hc2]
        have hready : g.ready p = true := by
          rcases hr : g.ready p
          · exact absurd (Or.inl hr) hc1
          · rfl
        obtain ⟨news, m1, m2, m3, m4, m5, m6, m7⟩ :=
          ih ⟨setMark st.ms p Mark.blue, p :: st.blue, st.colored ++ [p]⟩ poisoned
        rw [hpush]
        have hpn : p ∉ news := by
          intro hp
          have := (m5 p hp).1
          simp at this
        refine ⟨p :: news, ?_, ?_, ?_, ?_, ?_, ?_, ?_⟩
        · intro u
          rw [m1 u]
          by_cases hun : u ∈ news <;> by_cases hup : u = p <;>
            simp [hun, hup, List.mem_cons]
        · rw [m2]
          simp
        · rw [m3]
          simp
        · exact List.nodup_cons.mpr ⟨hpn, m4⟩
        · intro u hu
          rcases List.mem_cons.mp hu with rfl | hu
          · exact ⟨hc2, hready, List.mem_cons_self _ _⟩
          · have h5 := m5 u hu
            have hup : u ≠ p := by
              intro h
              rw [h] at h5
              simp at h5
            refine ⟨?_, h5.2.1, List.mem_cons_of_mem _ h5.2.2⟩
            have := h5.1
            simpa [hup] using this
        · intro hf
          obtain ⟨hpz, hall⟩ := m6 hf
          refine ⟨hpz, ?_⟩
          intro q hq
          rcases List.mem_cons.mp hq with rfl | hq
          · refine ⟨hready, ?_, ?_⟩ <;>
              rw [m1 q] <;> by_cases hqn : q ∈ news <;> simp [hqn]
          · exact hall q hq
        · intro ht
          rcases m7 ht with hpz | ⟨q, hq, hcase⟩
          · exact Or.inl hpz
          · rcases hcase with hcase | hcase
            · exact Or.inr ⟨q, List.mem_cons_of_mem _ hq, Or.inl hcase⟩
            · have hqp : q ≠ p := by
                intro h
                rw [h] at hcase
                simp at hcase
              rw [getMark_setMark, if_neg hqp] at hcase
              exact Or.inr ⟨q, List.mem_cons_of_mem _ hq, Or.inr hcase⟩
      · -- already marked green or blue: skip
        have hskip : precLoop g (p :: ps) st poisoned = precLoop g ps st poisoned := by
          conv_lhs => unfold precLoop
          rw [if_neg hc1, if_neg hc2]
        have hready : g.ready p = true := by
          rcases hr : g.ready p
          · exact absurd (Or.inl hr) hc1
          · rfl
        have hnotred : getMark st.ms p ≠ Mark.red := fun h => hc1 (Or.inr h)
        obtain ⟨news, m1, m2, m3, m4, m5, m6, m7⟩ := ih st poisoned
        rw [hskip]
        refine ⟨news, m1, m2, m3, m4,
          fun u hu => ⟨(m5 u hu).1, (m5 u hu).2.1, List.mem_cons_of_mem _ (m5 u hu).2.2⟩,
          ?_, ?_⟩
        · intro hf
          obtain ⟨hpz, hall⟩ := m6 hf
          refine ⟨hpz, ?_⟩
          intro q hq
          rcases List.mem_cons.mp hq with rfl | hq
          · refine ⟨hready, ?_, ?_⟩ <;>
              rw [m1 q] <;> by_cases hqn : q ∈ news <;> simp [hqn, hnotred, hc2]
          · exact hall q hq
        · intro ht
          rcases m7 ht with hpz | ⟨q, hq, hcase⟩
          · exact Or.inl hpz
          · exact Or.inr ⟨q, List.mem_cons_of_mem _ hq, hcase⟩

/-- Full characterization of the subseqer scan: the new marks are a fresh
set of ready subseqers that get marked blue and pushed — previously
unmarked ones (appended to `colored`) when the transaction stayed green,
previously green ones (already colored) when it turned red; in the poisoned
case no subseqer is left green afterwards. -/
theorem subsLoop_spec (g : TxnGraph) (poisoned : Bool) (ss : List Nat) :
    ∀ st : LoopState,
      ∃ news : List Nat,
        (∀ u, getMark (subsLoop g poisoned ss st).ms u
            = if u ∈ news then Mark.blue else getMark st.ms u)
          ∧ (subsLoop g poisoned ss st).blue = news.reverse ++ st.blue
          ∧ (∃ newc : List Nat,
              (subsLoop g poisoned ss st).colored = st.colored ++ newc
                ∧ (∀ u, u ∈ newc ↔ u ∈ news ∧ getMark st.ms u = Mark.not)
                ∧ newc.Nodup)
          ∧ news.Nodup
          ∧ (∀ u ∈ news, u ∈ ss ∧ g.ready u = true
              ∧ (poisoned = true → getMark st.ms u = Mark.green)
              ∧ (poisoned = false → getMark st.ms u = Mark.not))
          ∧ (poisoned = true →
              (∀ u, getMark st.ms u = Mark.green → g.ready u = true) →
              ∀ u ∈ ss, getMark (subsLoop g poisoned ss st).ms u ≠ Mark.green) := by
  induction ss with
  | nil =>
    intro st
    refine ⟨[], by simp [subsLoop], by simp [subsLoop],
      ⟨[], by simp [subsLoop], by simp, List.nodup_nil⟩, List.nodup_nil, ?_, ?_⟩
    · intro u hu
      cases hu
    · intro _ _ u hu
      cases hu
  | cons s ss ih =>
    intro st
    by_cases hc1 : g.ready s = false
    · -- unready subseqer: skipped
      have heq : subsLoop g poisoned (s :: ss) st = subsLoop g poisoned ss st := by
        conv_lhs => unfold subsLoop
        rw [if_pos hc1]
      obtain ⟨news, m1, m2, ⟨newc, n1, n2, n3⟩, m4, m5, m6⟩ := ih st
      rw [heq]
      refine ⟨news, m1, m2, ⟨newc, n1, n2, n3⟩, m4,
        fun u hu => ⟨List.mem_cons_of_mem _ (m5 u hu).1, (m5 u hu).2⟩, ?_⟩
      intro hp hgr u hu
      rcases List.mem_cons.mp hu with rfl | hu
      · rw [m1 u]
        by_cases hun : u ∈ news
        · simp [hun]
        · simp only [hun, if_neg, if_false]
          intro hg
          rw [hgr u hg] at hc1
          cases hc1
      · exact m6 hp hgr u hu
    · by_cases hc2 : getMark st.ms s = Mark.not
      · rcases hpz : poisoned
        · -- unmarked subseqer, transaction green: push and color
          have heq : subsLoop g false (s :: ss) st
              = subsLoop g false ss
                  ⟨setMark st.ms s Mark.blue, s :: st.blue, st.colored ++ [s]⟩ := by
            conv_lhs => unfold subsLoop
            rw [if_neg hc1, if_pos hc2]
            simp
          have hready : g.ready s = true := by
            rcases hr : g.ready s
            · exact absurd hr hc1
            · rfl
          subst hpz
          obtain ⟨news, m1, m2, ⟨newc, n1, n2, n3⟩, m4, m5, m6⟩ :=
            ih ⟨setMark st.ms s Mark.blue, s :: st.blue, st.colored ++ [s]⟩
          rw [heq]
          have hsn : s ∉ news := by
            intro hs
            have := ((m5 s hs).2.2.2) rfl
            simp at this
          have hsc : s ∉ newc := by
            intro hs
            have := (n2 s).mp hs
            simp at this
          refine ⟨s :: news, ?_, ?_, ⟨s :: newc, ?_, ?_, List.nodup_cons.mpr ⟨hsc, n3⟩⟩,
            List.nodup_cons.mpr ⟨hsn, m4⟩, ?_, ?_⟩
          · intro u
            rw [m1 u]
            by_cases hun : u ∈ news <;> by_cases hus : u = s <;>
              simp [hun, hus, List.mem_cons]
          · rw [m2]
            simp
          · rw [n1]
            simp
          · intro u
            by_cases hus : u = s
            · subst hus
              simp [hc2]
            · simp only [List.mem_cons, hus, false_or]
              rw [n2 u, getMark_setMark, if_neg hus]
          · intro u hu
            rcases List.mem_cons.mp hu with rfl | hu
            · refine ⟨List.mem_cons_self _ _, hready, ?_, fun _ => hc2⟩
              intro h
              simp at h
            · have h5 := m5 u hu
              have hus : u ≠ s := by
                intro h
                have := h5.2.2.2 rfl
                rw [h] at this
                simp at this
              refine ⟨List.mem_cons_of_mem _ h5.1, h5.2.1, ?_, ?_⟩
              · intro h
                simp at h
              · intro _
                have := h5.2.2.2 rfl
                rwa [getMark_setMark, if_neg hus] at this
          · intro hp
            cases hp
        · -- unmarked subseqer, transaction red: skipped
          have heq : subsLoop g true (s :: ss) st = subsLoop g true ss st := by
            conv_lhs => unfold subsLoop
            rw [if_neg hc1, if_pos hc2]
            simp
          subst hpz
          obtain ⟨news, m1, m2, ⟨newc, n1, n2, n3⟩, m4, m5, m6⟩ := ih st
          rw [heq]
          refine ⟨news, m1, m2, ⟨newc, n1, n2, n3⟩, m4,
            fun u hu => ⟨List.mem_cons_of_mem _ (m5 u hu).1, (m5 u hu).2⟩, ?_⟩
          intro hp hgr u hu
          rcases List.mem_cons.mp hu with rfl | hu
          · rw [m1 u]
            by_cases hun : u ∈ news
            · simp [hun]
            · simp only [hun, if_neg, if_false]
              rw [hc2]
              intro h
              cases h
          · exact m6 hp hgr u hu
      · by_cases hc3 : getMark st.ms s = Mark.green
        · rcases hpz : poisoned
          · -- green subseqer, transaction green: skipped
            have heq : subsLoop g false (s :: ss) st = subsLoop g false ss st := by
              conv_lhs => unfold subsLoop
              rw [if_neg hc1, if_neg hc2, if_pos hc3]
              simp
            subst hpz
            obtain ⟨news, m1, m2, ⟨newc, n1, n2, n3⟩, m4, m5, m6⟩ := ih st
            rw [heq]
            refine ⟨news, m1, m2, ⟨newc, n1, n2, n3⟩, m4,
              fun u hu => ⟨List.mem_cons_of_mem _ (m5 u hu).1, (m5 u hu).2⟩, ?_⟩
            intro hp
            cases hp
          · -- green subseqer, transaction red: re-blue and push
            have heq : subsLoop g true (s :: ss) st
                = subsLoop g true ss
                    ⟨setMark st.ms s Mark.blue, s :: st.blue, st.colored⟩ := by
              conv_lhs => unfold subsLoop
              rw [if_neg hc1, if_neg hc2, if_pos hc3]
              simp
            have hready : g.ready s = true := by
              rcases hr : g.ready s
              · exact absurd hr hc1
              · rfl
            subst hpz
            obtain ⟨news, m1, m2, ⟨newc, n1, n2, n3⟩, m4, m5, m6⟩ :=
              ih ⟨setMark st.ms s Mark.blue, s :: st.blue, st.colored⟩
            rw [heq]
            have hsn : s ∉ news := by
              intro hs
              have := (m5 s hs).2.2.1 rfl
              simp at this
            refine ⟨s :: news, ?_, ?_, ⟨newc, ?_, ?_, n3⟩,
              List.nodup_cons.mpr ⟨hsn, m4⟩, ?_, ?_⟩
            · intro u
              rw [m1 u]
              by_cases hun : u ∈ news <;> by_cases hus : u = s <;>
                simp [hun, hus, List.mem_cons]
            · rw [m2]
              simp
            · rw [n1]
            · intro u
              rw [n2 u]
              by_cases hus : u = s
              · subst hus
                constructor
                · intro h
                  rw [getMark_setMark, if_pos rfl] at h
                  cases h.2
                · intro h
                  exact absurd h.2 hc2
              · simp [List.mem_cons, hus, getMark_setMark]
            · intro u hu
              rcases List.mem_cons.mp hu with rfl | hu
              · refine ⟨List.mem_cons_self _ _, hready, fun _ => hc3, ?_⟩
                intro h
                simp at h
              · have h5 := m5 u hu
                have hus : u ≠ s := by
                  intro h
                  have := h5.2.2.1 rfl
                  rw [h] at this
                  simp at this
                refine ⟨List.mem_cons_of_mem _ h5.1, h5.2.1, ?_, ?_⟩
                · intro _
                  have := h5.2.2.1 rfl
                  rwa [getMark_setMark, if_neg hus] at this
                · intro h
                  simp at h
            · intro _ hgr u hu
              rcases List.mem_cons.mp hu with rfl | hu
              · rw [m1 u]
                by_cases hun : u ∈ news
                · simp [hun]
                · simp only [hun, if_neg, if_false, getMark_setMark, if_pos rfl]
                  intro h
                  cases h
              · refine m6 rfl ?_ u hu
                intro v hv
                have hvs : v ≠ s := by
                  intro h
                  rw [h, getMark_setMark, if_pos rfl] at hv
                  cases hv
                rw [getMark_setMark, if_neg hvs] at hv
                exact hgr v hv
        · -- blue or red subseqer: skipped
          have heq : subsLoop g poisoned (s :: ss) st = subsLoop g poisoned ss st := by
            conv_lhs => unfold subsLoop
            rw [if_neg hc1, if_neg hc2, if_neg hc3]
          obtain ⟨news, m1, m2, ⟨newc, n1, n2, n3⟩, m4, m5, m6⟩ := ih st
          rw [heq]
          refine ⟨news, m1, m2, ⟨newc, n1, n2, n3⟩, m4,
            fun u hu => ⟨List.mem_cons_of_mem _ (m5 u hu).1, (m5 u hu).2⟩, ?_⟩
          intro hp hgr u hu
          rcases List.mem_cons.mp hu with rfl | hu
          · rw [m1 u]
            by_cases hun : u ∈ news
            · simp [hun]
            · simp only [hun, if_neg, if_false]
              exact hc3
          · exact m6 hp hgr u hu

/-- The loop invariant of the flush-set walk over a well-formed graph: the
blue stack carries exactly the blue-marked transactions (each once), the
`colored` vector carries exactly the marked ones (each once), every marked
transaction is live and ready, the base transaction stays marked, a
transaction whose whole preceder closure is ready is never red, and every
preceder of a green transaction is itself green or still pending (blue). -/
structure FlushInv (g : TxnGraph) (base : Nat) (st : LoopState) : Prop where
  blue_iff : ∀ t, getMark st.ms t = Mark.blue ↔ t ∈ st.blue
  blue_nd : st.blue.Nodup
  colored_iff : ∀ t, getMark st.ms t ≠ Mark.not ↔ t ∈ st.colored
  colored_nd : st.colored.Nodup
  marked_nodes : ∀ t, getMark st.ms t ≠ Mark.not → t ∈ g.nodes
  marked_ready : ∀ t, getMark st.ms t ≠ Mark.not → g.ready t = true
  base_marked : getMark st.ms base ≠ Mark.not
  good_not_red : ∀ t, AllReadyClosure g t → getMark st.ms t ≠ Mark.red
  green_prec : ∀ t, getMark st.ms t = Mark.green →
    ∀ p ∈ g.preceders t, getMark st.ms p = Mark.green ∨ getMark st.ms p = Mark.blue

/-- One iteration of the main loop preserves the invariant: popping the top
blue transaction, scanning its preceders, marking it red or green, and
scanning its subseqers. -/
theorem flushInv_step (g : TxnGraph) (base : Nat) (hwf : GraphWF g)
    (ms0 : Marks) (txn : Nat) (rest co : List Nat)
    (hinv : FlushInv g base ⟨ms0, txn :: rest, co⟩) :
    FlushInv g base
      (subsLoop g (precLoop g (g.preceders txn) ⟨ms0, rest, co⟩ false).2
        (g.subseqers txn)
        ⟨setMark (precLoop g (g.preceders txn) ⟨ms0, rest, co⟩ false).1.ms txn
            (if (precLoop g (g.preceders txn) ⟨ms0, rest, co⟩ false).2
              then Mark.red else Mark.green),
          (precLoop g (g.preceders txn) ⟨ms0, rest, co⟩ false).1.blue,
          (precLoop g (g.preceders txn) ⟨ms0, rest, co⟩ false).1.colored⟩) := by
  obtain ⟨news1, m1, m2, m3, m4, m5, m6, m7⟩ :=
    precLoop_spec g (g.preceders txn) ⟨ms0, rest, co⟩ false
  dsimp only at m1 m2 m3 m5 m7
  set pr := precLoop g (g.preceders txn) ⟨ms0, rest, co⟩ false with hprdef
  have hb0 : getMark ms0 txn = Mark.blue :=
    (hinv.blue_iff txn).mpr (List.mem_cons_self _ _)
  have htn : txn ∈ g.nodes := hinv.marked_nodes txn (by rw [hb0]; intro h; cases h)
  have htr : g.ready txn = true := hinv.marked_ready txn (by rw [hb0]; intro h; cases h)
  have htxn_rest : txn ∉ rest := (List.nodup_cons.mp hinv.blue_nd).1
  have hrest_nd : rest.Nodup := (List.nodup_cons.mp hinv.blue_nd).2
  have hwf_t := hwf txn htn
  have htxn_n1 : txn ∉ news1 := by
    intro h
    have hx := (m5 txn h).1
    rw [hb0] at hx
    cases hx
  rcases hpz : pr.2 with _ | _
  · -- the popped transaction stays green
    rw [show (if (false : Bool) then Mark.red else Mark.green) = Mark.green from rfl]
    obtain ⟨news2, s1, s2, ⟨newc2, n1, n2, n3⟩, s4, s5, s6⟩ :=
      subsLoop_spec g false (g.subseqers txn)
        ⟨setMark pr.1.ms txn Mark.green, pr.1.blue, pr.1.colored⟩
    dsimp only at s1 s2 n1 n2 s5 s6
    set stf := subsLoop g false (g.subseqers txn)
      ⟨setMark pr.1.ms txn Mark.green, pr.1.blue, pr.1.colored⟩ with hstf
    have hm2 : ∀ u, getMark (setMark pr.1.ms txn Mark.green) u
        = if u = txn then Mark.green
          else if u ∈ news1 then Mark.blue else getMark ms0 u := by
      intro u
      rw [getMark_setMark]
      by_cases h : u = txn
      · rw [if_pos h, if_pos h]
      · rw [if_neg h, if_neg h, m1]
    have hm3 : ∀ u, getMark stf.ms u
        = if u ∈ news2 then Mark.blue
          else if u = txn then Mark.green
          else if u ∈ news1 then Mark.blue
          else getMark ms0 u := by
      intro u
      rw [s1 u]
      by_cases h2 : u ∈ news2
      · rw [if_pos h2, if_pos h2]
      · rw [if_neg h2, if_neg h2, hm2 u]
    have hblue3 : stf.blue = news2.reverse ++ (news1.reverse ++ rest) := by
      rw [s2, m2]
    have hcol3 : stf.colored = (co ++ news1) ++ newc2 := by
      rw [n1, m3]
    have hn2 : ∀ u ∈ news2, u ∈ g.subseqers txn ∧ g.ready u = true
        ∧ u ≠ txn ∧ u ∉ news1 ∧ getMark ms0 u = Mark.not := by
      intro u hu
      obtain ⟨ha, hb, -, hd⟩ := s5 u hu
      have hnot := hd rfl
      rw [hm2 u] at hnot
      by_cases h1 : u = txn
      · rw [if_pos h1] at hnot
        cases hnot
      · rw [if_neg h1] at hnot
        by_cases h2 : u ∈ news1
        · rw [if_pos h2] at hnot
          cases hnot
        · rw [if_neg h2] at hnot
          exact ⟨ha, hb, h1, h2, hnot⟩
    have hnc : ∀ u, u ∈ newc2 ↔ u ∈ news2 := by
      intro u
      rw [n2 u]
      constructor
      · exact fun h => h.1
      · intro h
        exact ⟨h, (s5 u h).2.2.2 rfl⟩
    refine ⟨?_, ?_, ?_, ?_, ?_, ?_, ?_, ?_, ?_⟩
    · -- blue_iff
      intro t
      rw [hm3 t, hblue3]
      by_cases h2 : t ∈ news2
      · rw [if_pos h2]
        constructor
        · intro _
          exact List.mem_append.mpr (Or.inl (List.mem_reverse.mpr h2))
        · intro _
          rfl
      · rw [if_neg h2]
        by_cases ht : t = txn
        · subst ht
          rw [if_pos rfl]
          constructor
          · intro h
            cases h
          · intro h
            exfalso
            rcases List.mem_append.mp h with h | h
            · exact h2 (List.mem_reverse.mp h)
            rcases List.mem_append.mp h with h | h
            · exact htxn_n1 (List.mem_reverse.mp h)
            · exact htxn_rest h
        · rw [if_neg ht]
          by_cases h1 : t ∈ news1
          · rw [if_pos h1]
            constructor
            · intro _
              exact List.mem_append.mpr
                (Or.inr (List.mem_append.mpr (Or.inl (List.mem_reverse.mpr h1))))
            · intro _
              rfl
          · rw [if_neg h1]
            constructor
            · intro h
              have hm := (hinv.blue_iff t).mp h
              rcases List.mem_cons.mp hm with h' | h'
              · exact absurd h' ht
              · exact List.mem_append.mpr (Or.inr (List.mem_append.mpr (Or.inr h')))
            · intro h
              rcases List.mem_append.mp h with h | h
              · exact absurd (List.mem_reverse.mp h) h2
              rcases List.mem_append.mp h with h | h
              · exact absurd (List.mem_reverse.mp h) h1
              · exact (hinv.blue_iff t).mpr (List.mem_cons_of_mem _ h)
    · -- blue_nd
      rw [hblue3]
      rw [List.nodup_append, List.nodup_append, List.nodup_reverse, List.nodup_reverse]
      refine ⟨s4, ⟨m4, hrest_nd, ?_⟩, ?_⟩
      · intro a ha har
        have h1 := List.mem_reverse.mp ha
        have hx := (m5 a h1).1
        have hblue := (hinv.blue_iff a).mpr (List.mem_cons_of_mem _ har)
        rw [hx] at hblue
        cases hblue
      · intro a ha hmem
        have ha2 := List.mem_reverse.mp ha
        obtain ⟨-, -, hne, hn1', hnot⟩ := hn2 a ha2
        rcases List.mem_append.mp hmem with h | h
        · exact hn1' (List.mem_reverse.mp h)
        · have hblue := (hinv.blue_iff a).mpr (List.mem_cons_of_mem _ h)
          rw [hnot] at hblue
          cases hblue
    · -- colored_iff
      intro t
      rw [hm3 t, hcol3]
      by_cases h2 : t ∈ news2
      · rw [if_pos h2]
        constructor
        · intro _
          exact List.mem_append.mpr (Or.inr ((hnc t).mpr h2))
        · intro _ h
          cases h
      · rw [if_neg h2]
        by_cases ht : t = txn
        · subst ht
          rw [if_pos rfl]
          constructor
          · intro _
            have hm : t ∈ co := (hinv.colored_iff t).mp (by rw [hb0]; intro h; cases h)
            exact List.mem_append.mpr (Or.inl (List.mem_append.mpr (Or.inl hm)))
          · intro _ h
            cases h
        · rw [if_neg ht]
          by_cases h1 : t ∈ news1
          · rw [if_pos h1]
            constructor
            · intro _
              exact List.mem_append.mpr (Or.inl (List.mem_append.mpr (Or.inr h1)))
            · intro _ h
              cases h
          · rw [if_neg h1]
            constructor
            · intro h
              exact List.mem_append.mpr
                (Or.inl (List.mem_append.mpr (Or.inl ((hinv.colored_iff t).mp h))))
            · intro h
              rcases List.mem_append.mp h with h | h
              · rcases List.mem_append.mp h with h | h
                · exact (hinv.colored_iff t).mpr h
                · exact absurd h h1
              · exact absurd ((hnc t).mp h) h2
    · -- colored_nd
      rw [hcol3]
      rw [List.nodup_append, List.nodup_append]
      refine ⟨⟨hinv.colored_nd, m4, ?_⟩, n3, ?_⟩
      · intro a ha han1
        exact (hinv.colored_iff a).mpr ha ((m5 a han1).1)
      · intro a ha hanc
        obtain ⟨-, -, hne, hn1', hnot⟩ := hn2 a ((hnc a).mp hanc)
        rcases List.mem_append.mp ha with h | h
        · exact (hinv.colored_iff a).mpr h hnot
        · exact hn1' h
    · -- marked_nodes
      intro t hmark
      rw [hm3 t] at hmark
      by_cases h2 : t ∈ news2
      · exact (hwf_t.2 t (hn2 t h2).1).1
      · rw [if_neg h2] at hmark
        by_cases ht : t = txn
        · subst ht
          exact htn
        · rw [if_neg ht] at hmark
          by_cases h1 : t ∈ news1
          · exact (hwf_t.1 t (m5 t h1).2.2).1
          · rw [if_neg h1] at hmark
            exact hinv.marked_nodes t hmark
    · -- marked_ready
      intro t hmark
      rw [hm3 t] at hmark
      by_cases h2 : t ∈ news2
      · exact (hn2 t h2).2.1
      · rw [if_neg h2] at hmark
        by_cases ht : t = txn
        · subst ht
          exact htr
        · rw [if_neg ht] at hmark
          by_cases h1 : t ∈ news1
          · exact (m5 t h1).2.1
          · rw [if_neg h1] at hmark
            exact hinv.marked_ready t hmark
    · -- base_marked
      rw [hm3 base]
      by_cases h2 : base ∈ news2
      · rw [if_pos h2]
        intro h
        cases h
      · rw [if_neg h2]
        by_cases hbt : base = txn
        · rw [if_pos hbt]
          intro h
          cases h
        · rw [if_neg hbt]
          by_cases h1 : base ∈ news1
          · rw [if_pos h1]
            intro h
            cases h
          · rw [if_neg h1]
            exact hinv.base_marked
    · -- good_not_red
      intro t hgood
      rw [hm3 t]
      by_cases h2 : t ∈ news2
      · rw [if_pos h2]
        intro h
        cases h
      · rw [if_neg h2]
        by_cases ht : t = txn
        · rw [if_pos ht]
          intro h
          cases h
        · rw [if_neg ht]
          by_cases h1 : t ∈ news1
          · rw [if_pos h1]
            intro h
            cases h
          · rw [if_neg h1]
            exact hinv.good_not_red t hgood
    · -- green_prec
      intro t hgreen p hp
      rw [hm3 t] at hgreen
      by_cases h2 : t ∈ news2
      · rw [if_pos h2] at hgreen
        cases hgreen
      · rw [if_neg h2] at hgreen
        by_cases ht : t = txn
        · subst ht
          obtain ⟨-, hall⟩ := m6 hpz
          have hres := hall p hp
          rw [hm3 p]
          by_cases hp2 : p ∈ news2
          · rw [if_pos hp2]
            exact Or.inr rfl
          · rw [if_neg hp2]
            by_cases hpt : p = t
            · rw [if_pos hpt]
              exact Or.inl rfl
            · rw [if_neg hpt]
              by_cases hp1 : p ∈ news1
              · rw [if_pos hp1]
                exact Or.inr rfl
              · rw [if_neg hp1]
                have hr1 := hres.2.1
                have hr2 := hres.2.2
                rw [m1 p, if_neg hp1] at hr1 hr2
                rcases hmp : getMark ms0 p with _ | _ | _ | _
                · exact absurd hmp hr2
                · exact Or.inr rfl
                · exact Or.inl rfl
                · exact absurd hmp hr1
        · rw [if_neg ht] at hgreen
          by_cases h1 : t ∈ news1
          · rw [if_pos h1] at hgreen
            cases hgreen
          · rw [if_neg h1] at hgreen
            have hold := hinv.green_prec t hgreen p hp
            rw [hm3 p]
            by_cases hp2 : p ∈ news2
            · rw [if_pos hp2]
              exact Or.inr rfl
            · rw [if_neg hp2]
              by_cases hpt : p = txn
              · rw [if_pos hpt]
                exact Or.inl rfl
              · rw [if_neg hpt]
                by_cases hp1 : p ∈ news1
                · rw [if_pos hp1]
                  exact Or.inr rfl
                · rw [if_neg hp1]
                  exact hold
  · -- the popped transaction turns red
    rw [show (if (true : Bool) then Mark.red else Mark.green) = Mark.red from rfl]
    obtain ⟨news2, s1, s2, ⟨newc2, n1, n2, n3⟩, s4, s5, s6⟩ :=
      subsLoop_spec g true (g.subseqers txn)
        ⟨setMark pr.1.ms txn Mark.red, pr.1.blue, pr.1.colored⟩
    dsimp only at s1 s2 n1 n2 s5 s6
    set stf := subsLoop g true (g.subseqers txn)
      ⟨setMark pr.1.ms txn Mark.red, pr.1.blue, pr.1.colored⟩ with hstf
    have hm2 : ∀ u, getMark (setMark pr.1.ms txn Mark.red) u
        = if u = txn then Mark.red
          else if u ∈ news1 then Mark.blue else getMark ms0 u := by
      intro u
      rw [getMark_setMark]
      by_cases h : u = txn
      · rw [if_pos h, if_pos h]
      · rw [if_neg h, if_neg h, m1]
    have hm3 : ∀ u, getMark stf.ms u
        = if u ∈ news2 then Mark.blue
          else if u = txn then Mark.red
          else if u ∈ news1 then Mark.blue
          else getMark ms0 u := by
      intro u
      rw [s1 u]
      by_cases h2 : u ∈ news2
      · rw [if_pos h2, if_pos h2]
      · rw [if_neg h2, if_neg h2, hm2 u]
    have hblue3 : stf.blue = news2.reverse ++ (news1.reverse ++ rest) := by
      rw [s2, m2]
    have hcol3 : stf.colored = (co ++ news1) ++ newc2 := by
      rw [n1, m3]
    have hn2 : ∀ u ∈ news2, u ∈ g.subseqers txn ∧ g.ready u = true
        ∧ u ≠ txn ∧ u ∉ news1 ∧ getMark ms0 u = Mark.green := by
      intro u hu
      obtain ⟨ha, hb, hc, -⟩ := s5 u hu
      have hg := hc rfl
      rw [hm2 u] at hg
      by_cases h1 : u = txn
      · rw [if_pos h1] at hg
        cases hg
      · rw [if_neg h1] at hg
        by_cases h2 : u ∈ news1
        · rw [if_pos h2] at hg
          cases hg
        · rw [if_neg h2] at hg
          exact ⟨ha, hb, h1, h2, hg⟩
    have hnc : ∀ u, u ∉ newc2 := by
      intro u hu
      have h := (n2 u).mp hu
      have hg := (s5 u h.1).2.2.1 rfl
      rw [h.2] at hg
      cases hg
    have hgr : ∀ u, getMark (setMark pr.1.ms txn Mark.red) u = Mark.green →
        g.ready u = true := by
      intro u hg
      rw [hm2 u] at hg
      by_cases h1 : u = txn
      · rw [if_pos h1] at hg
        cases hg
      · rw [if_neg h1] at hg
        by_cases h2 : u ∈ news1
        · rw [if_pos h2] at hg
          cases hg
        · rw [if_neg h2] at hg
          exact hinv.marked_ready u (by rw [hg]; intro h; cases h)
    have hs6 := s6 rfl hgr
    refine ⟨?_, ?_, ?_, ?_, ?_, ?_, ?_, ?_, ?_⟩
    · -- blue_iff
      intro t
      rw [hm3 t, hblue3]
      by_cases h2 : t ∈ news2
      · rw [if_pos h2]
        constructor
        · intro _
          exact List.mem_append.mpr (Or.inl (List.mem_reverse.mpr h2))
        · intro _
          rfl
      · rw [if_neg h2]
        by_cases ht : t = txn
        · subst ht
          rw [if_pos rfl]
          constructor
          · intro h
            cases h
          · intro h
            exfalso
            rcases List.mem_append.mp h with h | h
            · exact h2 (List.mem_reverse.mp h)
            rcases List.mem_append.mp h with h | h
            · exact htxn_n1 (List.mem_reverse.mp h)
            · exact htxn_rest h
        · rw [if_neg ht]
          by_cases h1 : t ∈ news1
          · rw [if_pos h1]
            constructor
            · intro _
              exact List.mem_append.mpr
                (Or.inr (List.mem_append.mpr (Or.inl (List.mem_reverse.mpr h1))))
            · intro _
              rfl
          · rw [if_neg h1]
            constructor
            · intro h
              have hm := (hinv.blue_iff t).mp h
              rcases List.mem_cons.mp hm with h' | h'
              · exact absurd h' ht
              · exact List.mem_append.mpr (Or.inr (List.mem_append.mpr (Or.inr h')))
            · intro h
              rcases List.mem_append.mp h with h | h
              · exact absurd (List.mem_reverse.mp h) h2
              rcases List.mem_append.mp h with h | h
              · exact absurd (List.mem_reverse.mp h) h1
              · exact (hinv.blue_iff t).mpr (List.mem_cons_of_mem _ h)
    · -- blue_nd
      rw [hblue3]
      rw [List.nodup_append, List.nodup_append, List.nodup_reverse, List.nodup_reverse]
      refine ⟨s4, ⟨m4, hrest_nd, ?_⟩, ?_⟩
      · intro a ha har
        have h1 := List.mem_reverse.mp ha
        have hx := (m5 a h1).1
        have hblue := (hinv.blue_iff a).mpr (List.mem_cons_of_mem _ har)
        rw [hx] at hblue
        cases hblue
      · intro a ha hmem
        have ha2 := List.mem_reverse.mp ha
        obtain ⟨-, -, hne, hn1', hg⟩ := hn2 a ha2
        rcases List.mem_append.mp hmem with h | h
        · exact hn1' (List.mem_reverse.mp h)
        · have hblue := (hinv.blue_iff a).mpr (List.mem_cons_of_mem _ h)
          rw [hg] at hblue
          cases hblue
    · -- colored_iff
      intro t
      rw [hm3 t, hcol3]
      by_cases h2 : t ∈ news2
      · rw [if_pos h2]
        constructor
        · intro _
          have hg := (hn2 t h2).2.2.2.2
          have hm : t ∈ co := (hinv.colored_iff t).mp (by rw [hg]; intro h; cases h)
          exact List.mem_append.mpr (Or.inl (List.mem_append.mpr (Or.inl hm)))
        · intro _ h
          cases h
      · rw [if_neg h2]
        by_cases ht : t = txn
        · subst ht
          rw [if_pos rfl]
          constructor
          · intro _
            have hm : t ∈ co := (hinv.colored_iff t).mp (by rw [hb0]; intro h; cases h)
            exact List.mem_append.mpr (Or.inl (List.mem_append.mpr (Or.inl hm)))
          · intro _ h
            cases h
        · rw [if_neg ht]
          by_cases h1 : t ∈ news1
          · rw [if_pos h1]
            constructor
            · intro _
              exact List.mem_append.mpr (Or.inl (List.mem_append.mpr (Or.inr h1)))
            · intro _ h
              cases h
          · rw [if_neg h1]
            constructor
            · intro h
              exact List.mem_append.mpr
                (Or.inl (List.mem_append.mpr (Or.inl ((hinv.colored_iff t).mp h))))
            · intro h
              rcases List.mem_append.mp h with h | h
              · rcases List.mem_append.mp h with h | h
                · exact (hinv.colored_iff t).mpr h
                · exact absurd h h1
              · exact absurd h (hnc t)
    · -- colored_nd
      rw [hcol3]
      rw [List.nodup_append, List.nodup_append]
      refine ⟨⟨hinv.colored_nd, m4, ?_⟩, n3, ?_⟩
      · intro a ha han1
        exact (hinv.colored_iff a).mpr ha ((m5 a han1).1)
      · intro a ha hanc
        exact hnc a hanc
    · -- marked_nodes
      intro t hmark
      rw [hm3 t] at hmark
      by_cases h2 : t ∈ news2
      · exact (hwf_t.2 t (hn2 t h2).1).1
      · rw [if_neg h2] at hmark
        by_cases ht : t = txn
        · subst ht
          exact htn
        · rw [if_neg ht] at hmark
          by_cases h1 : t ∈ news1
          · exact (hwf_t.1 t (m5 t h1).2.2).1
          · rw [if_neg h1] at hmark
            exact hinv.marked_nodes t hmark
    · -- marked_ready
      intro t hmark
      rw [hm3 t] at hmark
      by_cases h2 : t ∈ news2
      · exact (hn2 t h2).2.1
      · rw [if_neg h2] at hmark
        by_cases ht : t = txn
        · subst ht
          exact htr
        · rw [if_neg ht] at hmark
          by_cases h1 : t ∈ news1
          · exact (m5 t h1).2.1
          · rw [if_neg h1] at hmark
            exact hinv.marked_ready t hmark
    · -- base_marked
      rw [hm3 base]
      by_cases h2 : base ∈ news2
      · rw [if_pos h2]
        intro h
        cases h
      · rw [if_neg h2]
        by_cases hbt : base = txn
        · rw [if_pos hbt]
          intro h
          cases h
        · rw [if_neg hbt]
          by_cases h1 : base ∈ news1
          · rw [if_pos h1]
            intro h
            cases h
          · rw [if_neg h1]
            exact hinv.base_marked
    · -- good_not_red
      intro t hgood
      rw [hm3 t]
      by_cases h2 : t ∈ news2
      · rw [if_pos h2]
        intro h
        cases h
      · rw [if_neg h2]
        by_cases ht : t = txn
        · exfalso
          subst ht
          rcases m7 hpz with h | ⟨p, hp, hcase⟩
          · cases h
          · rcases hcase with hcase | hcase
            · rw [hgood p (Relation.ReflTransGen.single hp)] at hcase
              cases hcase
            · exact hinv.good_not_red p
                (fun u hu => hgood u (Relation.ReflTransGen.head hp hu)) hcase
        · rw [if_neg ht]
          by_cases h1 : t ∈ news1
          · rw [if_pos h1]
            intro h
            cases h
          · rw [if_neg h1]
            exact hinv.good_not_red t hgood
    · -- green_prec
      intro t hgreen p hp
      rw [hm3 t] at hgreen
      by_cases h2 : t ∈ news2
      · rw [if_pos h2] at hgreen
        cases hgreen
      · rw [if_neg h2] at hgreen
        by_cases ht : t = txn
        · rw [if_pos ht] at hgreen
          cases hgreen
        · rw [if_neg ht] at hgreen
          by_cases h1 : t ∈ news1
          · rw [if_pos h1] at hgreen
            cases hgreen
          · rw [if_neg h1] at hgreen
            have hold := hinv.green_prec t hgreen p hp
            have htn' : t ∈ g.nodes :=
              hinv.marked_nodes t (by rw [hgreen]; intro h; cases h)
            rw [hm3 p]
            by_cases hp2 : p ∈ news2
            · rw [if_pos hp2]
              exact Or.inr rfl
            · rw [if_neg hp2]
              by_cases hpt : p = txn
              · exfalso
                have hts : t ∈ g.subseqers txn := by
                  have := ((hwf t htn').1 p hp).2
                  rwa [hpt] at this
                have := hs6 t hts
                rw [hm3 t, if_neg h2, if_neg ht, if_neg h1] at this
                exact this hgreen
              · rw [if_neg hpt]
                by_cases hp1 : p ∈ news1
                · rw [if_pos hp1]
                  exact Or.inr rfl
                · rw [if_neg hp1]
                  exact hold

/-- The main loop preserves the invariant and, when it returns within its
fuel, returns a state with an empty blue stack. -/
theorem flushLoop_inv (g : TxnGraph) (base : Nat) (hwf : GraphWF g) :
    ∀ (fuel : Nat) (st stf : LoopState), flushLoop g fuel st = some stf →
      FlushInv g base st → FlushInv g base stf ∧ stf.blue = [] := by
  intro fuel
  induction fuel with
  | zero =>
    intro st stf h _
    simp [flushLoop] at h
  | succ fuel ih =>
    intro st stf h hinv
    obtain ⟨ms, bl, co⟩ := st
    cases bl with
    | nil =>
      have h' : some (⟨ms, [], co⟩ : LoopState) = some stf := h
      rw [← Option.some.inj h']
      exact ⟨hinv, rfl⟩
    | cons txn rest =>
      have h' : flushLoop g fuel
          (subsLoop g (precLoop g (g.preceders txn) ⟨ms, rest, co⟩ false).2
            (g.subseqers txn)
            ⟨setMark (precLoop g (g.preceders txn) ⟨ms, rest, co⟩ false).1.ms txn
                (if (precLoop g (g.preceders txn) ⟨ms, rest, co⟩ false).2
                  then Mark.red else Mark.green),
              (precLoop g (g.preceders txn) ⟨ms, rest, co⟩ false).1.blue,
              (precLoop g (g.preceders txn) ⟨ms, rest, co⟩ false).1.colored⟩)
          = some stf := h
      exact ih _ stf h' (flushInv_step g base hwf ms txn rest co hinv)

/-- The cleanup pass resets the mark of every walked transaction and
collects, in order, exactly the walked transactions that were green. -/
theorem cleanupMarks_spec : ∀ (ts : List Nat) (ms : Marks),
    (∀ t, getMark (cleanupMarks ms ts).1 t
        = if t ∈ ts then Mark.not else getMark ms t)
      ∧ (ts.Nodup → ∀ t,
          t ∈ (cleanupMarks ms ts).2 ↔ t ∈ ts ∧ getMark ms t = Mark.green) := by
  intro ts
  induction ts with
  | nil =>
    intro ms
    constructor
    · intro t
      simp [cleanupMarks]
    · intro _ t
      simp [cleanupMarks]
  | cons a ts ih =>
    intro ms
    have heq1 : (cleanupMarks ms (a :: ts)).1
        = (cleanupMarks (setMark ms a Mark.not) ts).1 := rfl
    have heq2 : (cleanupMarks ms (a :: ts)).2
        = if getMark ms a = Mark.green
          then a :: (cleanupMarks (setMark ms a Mark.not) ts).2
          else (cleanupMarks (setMark ms a Mark.not) ts).2 := rfl
    constructor
    · intro t
      rw [heq1, (ih (setMark ms a Mark.not)).1 t]
      by_cases hts : t ∈ ts
      · rw [if_pos hts, if_pos (List.mem_cons_of_mem _ hts)]
      · rw [if_neg hts, getMark_setMark]
        by_cases hta : t = a
        · rw [if_pos hta, if_pos (by rw [hta]; exact List.mem_cons_self _ _)]
        · have hnot : t ∉ a :: ts := by
            intro hmem
            rcases List.mem_cons.mp hmem with hx | hx
            · exact hta hx
            · exact hts hx
          rw [if_neg hta, if_neg hnot]
    · intro hnd t
      obtain ⟨hna, hndts⟩ := List.nodup_cons.mp hnd
      have ih2 := (ih (setMark ms a Mark.not)).2 hndts
      rw [heq2]
      by_cases hg : getMark ms a = Mark.green
      · rw [if_pos hg]
        constructor
        · intro hmem
          rcases List.mem_cons.mp hmem with rfl | hmem
          · exact ⟨List.mem_cons_self _ _, hg⟩
          · have hx := (ih2 t).mp hmem
            have hta : t ≠ a := by
              intro he
              have h2 := hx.2
              rw [he, getMark_setMark, if_pos rfl] at h2
              cases h2
            refine ⟨List.mem_cons_of_mem _ hx.1, ?_⟩
            have h2 := hx.2
            rwa [getMark_setMark, if_neg hta] at h2
        · rintro ⟨h1, h2⟩
          rcases List.mem_cons.mp h1 with rfl | h1
          · exact List.mem_cons_self _ _
          · have hta : t ≠ a := fun he => hna (he ▸ h1)
            exact List.mem_cons_of_mem _
              ((ih2 t).mpr ⟨h1, by rw [getMark_setMark, if_neg hta]; exact h2⟩)
      · rw [if_neg hg]
        constructor
        · intro hmem
          have hx := (ih2 t).mp hmem
          have hta : t ≠ a := by
            intro he
            have h2 := hx.2
            rw [he, getMark_setMark, if_pos rfl] at h2
            cases h2
          refine ⟨List.mem_cons_of_mem _ hx.1, ?_⟩
          have h2 := hx.2
          rwa [getMark_setMark, if_neg hta] at h2
        · rintro ⟨h1, h2⟩
          rcases List.mem_cons.mp h1 with rfl | h1
          · exact absurd h2 hg
          · have hta : t ≠ a := fun he => hna (he ▸ h1)
            exact (ih2 t).mpr ⟨h1, by rw [getMark_setMark, if_neg hta]; exact h2⟩

/-- When every preceder of a green transaction is green, greenness follows
preceder reachability. -/
theorem green_reach (g : TxnGraph) (ms : Marks)
    (hcl : ∀ t, getMark ms t = Mark.green →
      ∀ p ∈ g.preceders t, getMark ms p = Mark.green) :
    ∀ t u, PrecReach g t u → getMark ms t = Mark.green →
      getMark ms u = Mark.green := by
  intro t u h hg
  induction h with
  | refl => exact hg
  | tail _ hbc ih => exact hcl _ ih _ hbc

/-- C1 (amended).  For a well-formed transaction graph and a live, ready
base transaction, when `maximal_flushable_txn_set` completes it returns a
flushable set: every member is ready and live, the set is closed under
preceders, the base belongs to it exactly when the base's whole preceder
closure is ready (in which case that closure is contained in the set), and
every mark is reset to `not` on return.  (The set is not in general the
largest such set: ready transactions connected to the base only through
not-yet-ready transactions are never visited — see `c1_counterexample`.) -/
theorem c1_maximal_flushable_txn_set (g : TxnGraph) (base fuel : Nat)
    (hwf : GraphWF g) (hbn : base ∈ g.nodes) (hbr : g.ready base = true)
    (out : List Nat) (msf : Marks)
    (h : maximalFlushableTxnSet g fuel base = some (out, msf)) :
    FlushableSet g out
      ∧ (∀ t ∈ out, t ∈ g.nodes)
      ∧ (base ∈ out ↔ AllReadyClosure g base)
      ∧ (AllReadyClosure g base → ∀ u, PrecReach g base u → u ∈ out)
      ∧ (∀ t, getMark msf t = Mark.not) := by
  unfold maximalFlushableTxnSet at h
  cases hfl : flushLoop g fuel ⟨setMark [] base Mark.blue, [base], [base]⟩ with
  | none =>
    rw [hfl] at h
    cases h
  | some stf =>
    rw [hfl] at h
    have h2 := Option.some.inj h
    rw [Prod.mk.injEq] at h2
    obtain ⟨ho, hm⟩ := h2
    have hg0 : ∀ t, getMark (setMark [] base Mark.blue) t
        = if t = base then Mark.blue else Mark.not := fun _ => rfl
    have hinv0 : FlushInv g base ⟨setMark [] base Mark.blue, [base], [base]⟩ := by
      refine ⟨?_, ?_, ?_, ?_, ?_, ?_, ?_, ?_, ?_⟩
      · intro t
        rw [hg0 t]
        by_cases hb : t = base
        · subst hb
          simp
        · rw [if_neg hb]
          simp [hb]
      · exact List.nodup_singleton _
      · intro t
        rw [hg0 t]
        by_cases hb : t = base
        · subst hb
          simp
        · rw [if_neg hb]
          simp [hb]
      · exact List.nodup_singleton _
      · intro t ht
        rw [hg0 t] at ht
        by_cases hb : t = base
        · subst hb
          exact hbn
        · rw [if_neg hb] at ht
          exact absurd rfl ht
      · intro t ht
        rw [hg0 t] at ht
        by_cases hb : t = base
        · subst hb
          exact hbr
        · rw [if_neg hb] at ht
          exact absurd rfl ht
      · rw [hg0 base, if_pos rfl]
        intro hx
        cases hx
      · intro t _
        rw [hg0 t]
        by_cases hb : t = base
        · rw [if_pos hb]
          intro hx
          cases hx
        · rw [if_neg hb]
          intro hx
          cases hx
      · intro t hgr
        rw [hg0 t] at hgr
        by_cases hb : t = base
        · rw [if_pos hb] at hgr
          cases hgr
        · rw [if_neg hb] at hgr
          cases hgr
    obtain ⟨hinvf, hempty⟩ := flushLoop_inv g base hwf fuel _ stf hfl hinv0
    have hnoblue : ∀ t, getMark stf.ms t ≠ Mark.blue := by
      intro t hbl
      have := (hinvf.blue_iff t).mp hbl
      rw [hempty] at this
      cases this
    have hclosed : ∀ t, getMark stf.ms t = Mark.green →
        ∀ p ∈ g.preceders t, getMark stf.ms p = Mark.green := by
      intro t hgr p hp
      rcases hinvf.green_prec t hgr p hp with hx | hx
      · exact hx
      · exact absurd hx (hnoblue p)
    obtain ⟨cm1, cm2⟩ := cleanupMarks_spec stf.colored stf.ms
    have cm2' := cm2 hinvf.colored_nd
    have hout_iff : ∀ t, t ∈ out ↔ getMark stf.ms t = Mark.green := by
      intro t
      rw [← ho, cm2' t]
      constructor
      · exact fun hx => hx.2
      · intro hx
        exact ⟨(hinvf.colored_iff t).mp (by rw [hx]; intro hc; cases hc), hx⟩
    have hbase_green_of_good : AllReadyClosure g base →
        getMark stf.ms base = Mark.green := by
      intro hgood
      have hnr := hinvf.good_not_red base hgood
      have hnn := hinvf.base_marked
      have hnb := hnoblue base
      rcases hx : getMark stf.ms base with _ | _ | _ | _
      · exact absurd hx hnn
      · exact absurd hx hnb
      · rfl
      · exact absurd hx hnr
    refine ⟨?_, ?_, ?_, ?_, ?_⟩
    · intro t ht
      have hgr := (hout_iff t).mp ht
      refine ⟨hinvf.marked_ready t (by rw [hgr]; intro hc; cases hc), ?_⟩
      intro p hp
      exact (hout_iff p).mpr (hclosed t hgr p hp)
    · intro t ht
      exact hinvf.marked_nodes t
        (by rw [(hout_iff t).mp ht]; intro hc; cases hc)
    · constructor
      · intro hb u hu
        have hgr := (hout_iff base).mp hb
        have hgu := green_reach g stf.ms hclosed base u hu hgr
        exact hinvf.marked_ready u (by rw [hgu]; intro hc; cases hc)
      · intro hgood
        exact (hout_iff base).mpr (hbase_green_of_good hgood)
    · intro hgood u hu
      exact (hout_iff u).mpr
        (green_reach g stf.ms hclosed base u hu (hbase_green_of_good hgood))
    · intro t
      rw [← hm, cm1 t]
      by_cases hc : t ∈ stf.colored
      · rw [if_pos hc]
      · rw [if_neg hc]
        by_contra hne
        exact hc ((hinvf.colored_iff t).mp hne)

/-- Counterexample graph for C1: transactions 0, 1, 2, where 1 is not yet
ready (began_waiting_for_flush false) and has preceders 0 and 2, which are
both ready with no preceders of their own. -/
def gC : TxnGraph :=
  ⟨[0, 1, 2],
    fun n => if n = 1 then [0, 2] else [],
    fun n => if n = 0 then [1] else if n = 2 then [1] else [],
    fun n => n ≠ 1⟩

/-- C1 counterexample to maximality: in `gC`, `[0, 2]` is a set containing
the base 0 all of whose members are ready with every preceder of a member in
the set, yet `maximal_flushable_txn_set(0)` returns only `[0]` — transaction
2 is connected to 0 only through the not-yet-ready transaction 1, so the
walk never reaches it and the returned set is not the largest one. -/
theorem c1_counterexample :
    GraphWF gC ∧ gC.ready 0 = true ∧ (0 : Nat) ∈ gC.nodes
      ∧ FlushableSet gC [0, 2] ∧ (0 : Nat) ∈ [0, 2]
      ∧ (maximalFlushableTxnSet gC 100 0).map Prod.fst = some [0]
      ∧ (2 : Nat) ∉ ([0] : List Nat) := by
  refine ⟨by decide, rfl, by decide, by decide, by decide, rfl, by decide⟩

/-- Witness graph: a single ready transaction with no edges. -/
def gW : TxnGraph := ⟨[0], fun _ => [], fun _ => [], fun _ => true⟩

/-- Witness instantiating `c1_maximal_flushable_txn_set` on `gW`. -/
theorem c1_maximal_flushable_txn_set_witness :
    FlushableSet gW [0]
      ∧ (∀ t ∈ ([0] : List Nat), t ∈ gW.nodes)
      ∧ ((0 : Nat) ∈ ([0] : List Nat) ↔ AllReadyClosure gW 0)
      ∧ (AllReadyClosure gW 0 → ∀ u, PrecReach gW 0 u → u ∈ ([0] : List Nat))
      ∧ (∀ t, getMark [(0, Mark.not), (0, Mark.green), (0, Mark.blue)] t = Mark.not) :=
  c1_maximal_flushable_txn_set gW 0 10 (by decide) (by decide) rfl
    [0] [(0, Mark.not), (0, Mark.green), (0, Mark.blue)] rfl

end Alt
